import Mathlib

/-
  Verification development for lib/SIL/SILValueProjection.cpp.

  The source file implements projection-tree based memory locations
  (LSLocation) and values (LSValue) for the load/store optimization:
  bottom-up value reduction (LSValue::reduce), location-set compaction
  (LSLocation::reduce), leaf expansion (LSLocation::expand), alias
  predicates, and the location enumerator.

  The embedding keeps the source's structure: SIL types are finite field
  trees, projection paths are lists of field indices, SSA values are
  natural-number identifiers, instruction emission is tracked by an
  explicit emission state, and the LLVM DenseMap/DenseSet containers are
  modelled as association lists and duplicate-free lists.
-/

set_option maxHeartbeats 1000000

namespace SILVP

mutual
/-- Modelled from the spec: the type system is an external collaborator of
the source file (only "first-level fields of a type", "leaf/node expansion
of a type" and "is this a class or bound generic class" are consumed).
`scalar` is an indivisible leaf type, `strct` is an aggregate (struct or
tuple) with its ordered fields, and `cls` is a class / reference type
carrying its stored fields. -/
inductive SType : Type where
  | scalar : Nat → SType
  | strct : SFields → SType
  | cls : Nat → SFields → SType

inductive SFields : Type where
  | nil : SFields
  | cons : SType → SFields → SFields
end

namespace SFields

/-- Number of fields in a field list. -/
def length : SFields → Nat
  | .nil => 0
  | .cons _ fs => fs.length + 1

/-- Indexing into a field list. -/
def get? : SFields → Nat → Option SType
  | .nil, _ => none
  | .cons f _, 0 => some f
  | .cons _ fs, n + 1 => fs.get? n

end SFields

/-- Number of first-level projections of a type, as reported by
the projection facility: structs and classes expose their stored fields,
scalars expose none. -/
def SType.firstLevelCount : SType → Nat
  | .scalar _ => 0
  | .strct fs => fs.length
  | .cls _ fs => fs.length

/-- The `getClassOrBoundGenericClass` test of the source: true exactly on
class / reference types. -/
def SType.isClass : SType → Bool
  | .cls _ _ => true
  | _ => false

/-- A node is a leaf of the decomposition when it has no first-level
fields or is a reference type (the two `continue` guards of both
reduction loops in the source). -/
def decompLeaf (t : SType) : Bool :=
  t.isClass || t.firstLevelCount == 0

/-- Following a projection path (a list of field indices) from a type to
the denoted sub-object type; `none` when the path does not exist in the
type tree. -/
def subType (t : SType) : List Nat → Option SType
  | [] => some t
  | i :: p =>
    match t with
    | .scalar _ => none
    | .strct fs =>
      match fs.get? i with
      | some f => subType f p
      | none => none
    | .cls _ fs =>
      match fs.get? i with
      | some f => subType f p
      | none => none

mutual
/-- Modelled from the spec: the Type Expansion Cache's node expansion
(`getTypeExpansion` with `TEKind::TENode`), which is missing from src/.
Every node of the field tree, parents strictly before all their
descendants, so that the reversed order visits children before parents;
class / reference types are decomposition leaves and not expanded. -/
def nodePathsOf : SType → List (List Nat)
  | .scalar _ => [[]]
  | .cls _ _ => [[]]
  | .strct fs => [] :: nodePathsFields 0 fs

def nodePathsFields : Nat → SFields → List (List Nat)
  | _, .nil => []
  | i, .cons f fs => (nodePathsOf f).map (fun p => i :: p) ++ nodePathsFields (i + 1) fs
end

mutual
/-- Modelled from the spec: the Type Expansion Cache's leaf expansion
(`getTypeExpansion` with `TEKind::TELeaf`), which is missing from src/.
Only the indivisible terminal nodes of the decomposition; a type with no
fields and a class / reference type are their own single leaf. -/
def leafPathsOf : SType → List (List Nat)
  | .scalar _ => [[]]
  | .cls _ _ => [[]]
  | .strct .nil => [[]]
  | .strct (.cons f fs) => leafPathsFields 0 (.cons f fs)

def leafPathsFields : Nat → SFields → List (List Nat)
  | _, .nil => []
  | i, .cons f fs => (leafPathsOf f).map (fun p => i :: p) ++ leafPathsFields (i + 1) fs
end

/-- LSLocation: a base address value (an SSA identifier) plus the
projection path from the base to the accessed sub-object. -/
structure LSLocation where
  base : Nat
  path : List Nat
deriving DecidableEq

/-- LSValue: a base SSA value plus the projection path from the base
value to the sub-value it denotes (empty path: the base itself). -/
structure LSValue where
  base : Nat
  path : List Nat
deriving DecidableEq

/-- Modelled from the spec: `LSValue::hasEmptyProjectionPath`, declared in
the header that is missing from src/. -/
def LSValue.hasEmptyProjectionPath (v : LSValue) : Bool :=
  v.path.isEmpty

/-- Modelled from the spec: `LSValue::stripLastLevelProjection`, declared
in the header that is missing from src/ — the Value one level shallower,
obtained by dropping the last projection step. -/
def LSValue.stripLastLevelProjection (v : LSValue) : LSValue :=
  ⟨v.base, v.path.dropLast⟩

/-- A typing environment assigning every SSA value identifier its type
(the `getType` queries of the source). -/
abbrev TyEnv : Type := Nat → SType

/-- `LSLocation::getType`: the type of the sub-object a location denotes. -/
def locType (E : TyEnv) (l : LSLocation) : Option SType :=
  subType (E l.base) l.path

/-- `LSLocation::getFirstLevelLSLocations`: one child location per
first-level projection of the location's type, each child's path being
the location's path with that one step appended. -/
def locFirstLevel (E : TyEnv) (l : LSLocation) : List LSLocation :=
  match locType E l with
  | none => []
  | some t => (List.range t.firstLevelCount).map (fun i => LSLocation.mk l.base (l.path ++ [i]))

/-- The class-reference guard of both reduction loops:
`getType(M).getClassOrBoundGenericClass()`. -/
def locIsClass (E : TyEnv) (l : LSLocation) : Bool :=
  match locType E l with
  | none => false
  | some t => t.isClass

/-- The instructions the reduction algorithm can emit: a single
extraction (one projection step applied to an operand) or an aggregate
construction from a list of operands. Each instruction records the SSA
identifier of its result. -/
inductive Instr : Type where
  | extract : Nat → Nat → Nat → Instr
  | aggregate : List Nat → Nat → Instr
deriving DecidableEq

/-- Emission state: the next fresh SSA identifier and the instructions
emitted so far (in order, at the single insertion point). -/
structure EmitState where
  next : Nat
  instrs : List Instr
deriving DecidableEq

/-- `SILValueProjection::createExtract` (source lines 39-71): if the path
is empty the base itself is the value and nothing is emitted; otherwise
one projection instruction is emitted per path step, each consuming the
previous step's result. -/
def createExtract (base : Nat) (path : List Nat) (s : EmitState) : Nat × EmitState :=
  path.foldl
    (fun acc pi =>
      (acc.2.next, EmitState.mk (acc.2.next + 1) (acc.2.instrs ++ [Instr.extract acc.1 pi acc.2.next])))
    (base, s)

/-- Modelled from the spec: `LSValue::materialize`, declared in the
header that is missing from src/ — obtain a concrete value, emitting the
extraction chain exactly when the projection path is non-empty. -/
def LSValue.materialize (v : LSValue) (s : EmitState) : Nat × EmitState :=
  createExtract v.base v.path s

/-- Modelled from the spec:
`Projection::createAggFromFirstLevelProjections`, which is missing from
src/ — emit one aggregate-construction instruction combining the given
operands. -/
def createAgg (ops : List Nat) (s : EmitState) : Nat × EmitState :=
  (s.next, EmitState.mk (s.next + 1) (s.instrs ++ [Instr.aggregate ops s.next]))

/-- The per-location value map (`LSLocationValueMap`, an LLVM DenseMap),
modelled as an association list with distinct keys. -/
abbrev VMap : Type := List (LSLocation × LSValue)

/-- Map lookup (`DenseMap::find`). -/
def vfind (m : VMap) (k : LSLocation) : Option LSValue :=
  match m with
  | [] => none
  | e :: es => if e.1 = k then some e.2 else vfind es k

/-- Map indexing as used by the source's `Values[X]` reads; a
default-constructed LSValue stands in for a missing entry (the source
never reads a missing child under its bottom-up invariant). -/
def vfindD (m : VMap) (k : LSLocation) : LSValue :=
  (vfind m k).getD ⟨0, []⟩

/-- Removing a key (`DenseMap::erase`). -/
def veraseKey (m : VMap) (k : LSLocation) : VMap :=
  m.filter (fun e => decide (¬ e.1 = k))

/-- Map update (`Values[K] = V`). -/
def vinsert (m : VMap) (k : LSLocation) (v : LSValue) : VMap :=
  veraseKey m k ++ [(k, v)]

/-- The source's utility `removeLSLocations` (lines 24-28): erase every
first-level location's entry. -/
def removeLSLocations (m : VMap) (FirstLevel : List LSLocation) : VMap :=
  FirstLevel.foldl veraseKey m

/-- One iteration of the bottom-up loop of `LSValue::reduce`
(source lines 105-186) at node `I`:
leaf nodes and class-reference nodes are skipped; a single child whose
value has a non-empty path, or several children sharing one value base
with the first child's path non-empty, are renamed to the stripped first
child's value without emitting anything; otherwise every child is
materialized, one aggregate is emitted, and the node's entry becomes the
aggregate's result with an empty path. -/
def reduceNode (E : TyEnv) (acc : VMap × EmitState) (I : LSLocation) : VMap × EmitState :=
  match locFirstLevel E I with
  | [] => acc
  | f0 :: rest =>
    if locIsClass E I then acc
    else
      let Values := acc.1
      let s := acc.2
      let FirstVal := vfindD Values f0
      if rest.isEmpty && !FirstVal.hasEmptyProjectionPath then
        (removeLSLocations (vinsert Values I FirstVal.stripLastLevelProjection) (f0 :: rest), s)
      else if !rest.isEmpty &&
          rest.all (fun x => (vfindD Values x).base == FirstVal.base) &&
          !FirstVal.hasEmptyProjectionPath then
        (removeLSLocations (vinsert Values I FirstVal.stripLastLevelProjection) (f0 :: rest), s)
      else
        let ms := (f0 :: rest).foldl
          (fun (p : List Nat × EmitState) x =>
            let r := (vfindD Values x).materialize p.2
            (p.1 ++ [r.1], r.2)) ([], s)
        let ag := createAgg ms.1 ms.2
        (removeLSLocations (vinsert Values I (LSValue.mk ag.1 [])) (f0 :: rest), ag.2)

/-- The node expansion of a base location: one location per node path of
the base's type, the base path prepended (source lines 97-101 and
269-273). -/
def nodeLocs (E : TyEnv) (Base : LSLocation) : List LSLocation :=
  match locType E Base with
  | none => []
  | some t => (nodePathsOf t).map (fun p => LSLocation.mk Base.base (Base.path ++ p))

/-- `LSValue::reduce` (source lines 87-192): visit the node expansion in
reverse (children before parents), fold `reduceNode`, then require that
exactly one entry remains (the source's assertion; `none` models the
fatal assertion failure) and materialize it. The result is the
materialized SILValue, the final map, and the final emission state. -/
def LSValue.reduce (E : TyEnv) (Base : LSLocation) (Values : VMap) (s : EmitState) :
    Option (Nat × VMap × EmitState) :=
  let r := (nodeLocs E Base).reverse.foldl (reduceNode E) (Values, s)
  match r.1 with
  | [kv] =>
    let m := kv.2.materialize r.2
    some (m.1, [kv], m.2)
  | _ => none

/-- The location set (`LSLocationSet`, an LLVM DenseSet), modelled as a
duplicate-free list. `DenseSet::erase`. -/
def sErase (s : List LSLocation) (x : LSLocation) : List LSLocation :=
  s.filter (fun y => decide (¬ y = x))

/-- `DenseSet::insert`: no effect when the element is already present. -/
def sInsert (s : List LSLocation) (x : LSLocation) : List LSLocation :=
  if x ∈ s then s else s ++ [x]

/-- One iteration of the bottom-up loop of `LSLocation::reduce`
(source lines 277-301) at node `I`: leaf and class-reference nodes are
skipped; when every first-level child is alive in the set, the children
are erased and the parent inserted. -/
def compactNode (E : TyEnv) (s : List LSLocation) (I : LSLocation) : List LSLocation :=
  match locFirstLevel E I with
  | [] => s
  | f0 :: rest =>
    if locIsClass E I then s
    else if (f0 :: rest).all (fun x => decide (x ∈ s)) then
      sInsert ((f0 :: rest).foldl sErase s) I
    else s

/-- `LSLocation::reduce` (source lines 265-302): fold `compactNode` over
the reversed node expansion of the base. -/
def LSLocation.reduce (E : TyEnv) (Base : LSLocation) (s : List LSLocation) : List LSLocation :=
  (nodeLocs E Base).reverse.foldl (compactNode E) s

/-- `LSLocation::expand` (source lines 251-263): one location per leaf
path of the base's type, the base path prepended. -/
def LSLocation.expand (E : TyEnv) (Base : LSLocation) : List LSLocation :=
  match locType E Base with
  | none => []
  | some t => (leafPathsOf t).map (fun p => LSLocation.mk Base.base (Base.path ++ p))

/-- The alias oracle consumed by the two alias predicates (`AliasAnalysis`
is external to the source file): `isNoAlias` and `isMustAlias` on two
base values. -/
structure AliasOracle where
  isNoAlias : Nat → Nat → Bool
  isMustAlias : Nat → Nat → Bool

/-- Modelled from the spec:
`ProjectionPath::hasNonEmptySymmetricDifference`, which is missing from
src/. The symmetric difference of two paths is non-empty exactly when,
after stripping the longest common leading prefix, both remainders are
non-empty (they then start with different steps — the paths diverge into
distinct sibling fields). -/
def hasNonEmptySymmetricDifference : List Nat → List Nat → Bool
  | [], _ => false
  | _, [] => false
  | a :: as, b :: bs => if a = b then hasNonEmptySymmetricDifference as bs else true

/-- `LSLocation::isMustAliasLSLocation` (source lines 198-207): the bases
must-alias and the projection paths are identical. -/
def isMustAliasLSLocation (A B : LSLocation) (AA : AliasOracle) : Bool :=
  if !(AA.isMustAlias A.base B.base) then false
  else if !(decide (A.path = B.path)) then false
  else true

/-- `LSLocation::isMayAliasLSLocation` (source lines 209-219): false when
the bases do not alias; false when the paths' symmetric difference is
non-empty; true otherwise. -/
def isMayAliasLSLocation (A B : LSLocation) (AA : AliasOracle) : Bool :=
  if AA.isNoAlias A.base B.base then false
  else if hasNonEmptySymmetricDifference A.path B.path then false
  else true

/-- The enumeration state of one pass: the ordered location vault, the
location-to-index map, and the accessed-address-to-location base map. -/
structure EnumState where
  locations : List LSLocation
  indexMap : List (LSLocation × Nat)
  baseMap : List (Nat × LSLocation)
deriving DecidableEq

/-- Lookup in the index map. -/
def findIdx (m : List (LSLocation × Nat)) (k : LSLocation) : Option Nat :=
  match m with
  | [] => none
  | e :: es => if e.1 = k then some e.2 else findIdx es k

/-- Lookup in the base map. -/
def findBase (m : List (Nat × LSLocation)) (k : Nat) : Option LSLocation :=
  match m with
  | [] => none
  | e :: es => if e.1 = k then some e.2 else findBase es k

/-- The body of the per-leaf loop of `LSLocation::enumerateLSLocation`
(source lines 329-334): a leaf already present in the index map is
skipped; otherwise it is assigned the current vault size as its index and
appended to the vault. -/
def enumStep (st2 : EnumState) (Loc : LSLocation) : EnumState :=
  if (findIdx st2.indexMap Loc).isSome then st2
  else EnumState.mk (st2.locations ++ [Loc]) (st2.indexMap ++ [(Loc, st2.locations.length)])
    st2.baseMap

/-- `LSLocation::enumerateLSLocation` (source lines 304-336). The
underlying-object canonicalization (`getUnderlyingObject` and
`ProjectionPath::getProjectionPath`, both missing from src/) is an oracle
pair: `uo` maps an address to its underlying object and `pp` gives the
path from the underlying object to the address, `none` when the address
cannot be canonicalized (the invalid-location case). Already-seen
addresses are skipped via the base map; otherwise the resolved location
is recorded and its leaf expansion appended to the vault, skipping leaves
already indexed. -/
def enumerateLSLocation (E : TyEnv) (uo : Nat → Nat) (pp : Nat → Nat → Option (List Nat))
    (Mem : Nat) (st : EnumState) : EnumState :=
  if (findBase st.baseMap Mem).isSome then st
  else
    match pp (uo Mem) Mem with
    | none => st
    | some P =>
      let L := LSLocation.mk (uo Mem) P
      let st1 := EnumState.mk st.locations st.indexMap (st.baseMap ++ [(Mem, L)])
      (LSLocation.expand E L).foldl enumStep st1

end SILVP

namespace SILVP

/-! Basic facts about the symmetric path difference. -/

theorem symmDiff_nil_left (q : List Nat) : hasNonEmptySymmetricDifference [] q = false := by
  cases q <;> rfl

theorem symmDiff_nil_right (p : List Nat) : hasNonEmptySymmetricDifference p [] = false := by
  cases p <;> rfl

theorem hasNonEmptySymmetricDifference_self (p : List Nat) :
    hasNonEmptySymmetricDifference p p = false := by
  induction p with
  | nil => rfl
  | cons a as ih => simp [hasNonEmptySymmetricDifference, ih]

theorem hasNonEmptySymmetricDifference_of_left_le (p q : List Nat) (h : p <+: q) :
    hasNonEmptySymmetricDifference p q = false := by
  induction p generalizing q with
  | nil => exact symmDiff_nil_left q
  | cons a as ih =>
    rcases q with _ | ⟨b, bs⟩
    · simp at h
    · rcases List.cons_prefix_cons.mp h with ⟨rfl, h3⟩
      simp [hasNonEmptySymmetricDifference, ih _ h3]

theorem hasNonEmptySymmetricDifference_of_right_le (p q : List Nat) (h : q <+: p) :
    hasNonEmptySymmetricDifference p q = false := by
  induction p generalizing q with
  | nil =>
    rcases List.prefix_nil.mp h with rfl
    rfl
  | cons a as ih =>
    rcases q with _ | ⟨b, bs⟩
    · rfl
    · rcases List.cons_prefix_cons.mp h with ⟨rfl, h3⟩
      simp [hasNonEmptySymmetricDifference, ih _ h3]

/-- Claim C4: isMayAliasLSLocation returns false when the alias oracle
reports the bases no-alias; otherwise it returns false exactly when the
two projection paths' symmetric difference is non-empty; in every other
case — in particular when one path is a prefix of the other — it returns
true. -/
theorem claim4 (A B : LSLocation) (AA : AliasOracle) :
    (AA.isNoAlias A.base B.base = true → isMayAliasLSLocation A B AA = false) ∧
    (AA.isNoAlias A.base B.base = false →
      (isMayAliasLSLocation A B AA = false ↔
        hasNonEmptySymmetricDifference A.path B.path = true)) ∧
    (AA.isNoAlias A.base B.base = false → (A.path <+: B.path ∨ B.path <+: A.path) →
      isMayAliasLSLocation A B AA = true) := by
  refine ⟨fun h => by simp [isMayAliasLSLocation, h], fun h => ?_, fun h hp => ?_⟩
  · constructor
    · intro h2
      by_contra hc
      simp only [Bool.not_eq_true] at hc
      simp [isMayAliasLSLocation, h, hc] at h2
    · intro h2
      simp [isMayAliasLSLocation, h, h2]
  · rcases hp with hp | hp
    · simp [isMayAliasLSLocation, h, hasNonEmptySymmetricDifference_of_left_le _ _ hp]
    · simp [isMayAliasLSLocation, h, hasNonEmptySymmetricDifference_of_right_le _ _ hp]

/-- Witness for claim C4 at concrete inputs: with an oracle that never
reports no-alias and locations whose paths are in a prefix relation, the
may-alias predicate answers true. -/
theorem claim4_witness :
    isMayAliasLSLocation ⟨0, [0]⟩ ⟨0, [0, 1]⟩ ⟨fun _ _ => false, fun _ _ => true⟩ = true :=
  (claim4 ⟨0, [0]⟩ ⟨0, [0, 1]⟩ ⟨fun _ _ => false, fun _ _ => true⟩).2.2 rfl
    (Or.inl (by decide))

/-- Claim C5: isMustAliasLSLocation holds exactly when the oracle reports
the bases must-alias and the paths are identical, and — whenever the
oracle is consistent (must-alias implies not no-alias) — must-alias of two
locations implies may-alias of the same two locations. -/
theorem claim5 (A B : LSLocation) (AA : AliasOracle)
    (hcons : ∀ a b, AA.isMustAlias a b = true → AA.isNoAlias a b = false) :
    (isMustAliasLSLocation A B AA = true ↔
      (AA.isMustAlias A.base B.base = true ∧ A.path = B.path)) ∧
    (isMustAliasLSLocation A B AA = true → isMayAliasLSLocation A B AA = true) := by
  have hiff : isMustAliasLSLocation A B AA = true ↔
      (AA.isMustAlias A.base B.base = true ∧ A.path = B.path) := by
    constructor
    · intro h
      by_cases h1 : AA.isMustAlias A.base B.base = true
      · by_cases h2 : A.path = B.path
        · exact ⟨h1, h2⟩
        · simp [isMustAliasLSLocation, h1, h2] at h
      · simp only [Bool.not_eq_true] at h1
        simp [isMustAliasLSLocation, h1] at h
    · rintro ⟨h1, h2⟩
      simp [isMustAliasLSLocation, h1, h2]
  refine ⟨hiff, fun h => ?_⟩
  rcases hiff.mp h with ⟨h1, h2⟩
  have hno := hcons _ _ h1
  simp [isMayAliasLSLocation, hno, h2, hasNonEmptySymmetricDifference_self]

/-- Witness for claim C5 at concrete inputs: a consistent oracle and one
location taken twice. -/
theorem claim5_witness :
    isMayAliasLSLocation ⟨3, [1]⟩ ⟨3, [1]⟩ ⟨fun _ _ => false, fun _ _ => true⟩ = true :=
  (claim5 ⟨3, [1]⟩ ⟨3, [1]⟩ ⟨fun _ _ => false, fun _ _ => true⟩ (fun _ _ _ => rfl)).2 rfl

/-- Claim C8: when the accessed address cannot be canonicalized to an
underlying object plus projection path (the resolution oracle yields
none), enumerateLSLocation records nothing: the vault, index map and base
map are all returned unchanged. -/
theorem claim8 (E : TyEnv) (uo : Nat → Nat) (pp : Nat → Nat → Option (List Nat))
    (Mem : Nat) (st : EnumState) (h : pp (uo Mem) Mem = none) :
    enumerateLSLocation E uo pp Mem st = st := by
  unfold enumerateLSLocation
  split
  · rfl
  · rw [h]

/-- Witness for claim C8: a concrete unresolvable address leaves a
concrete non-empty enumeration state untouched. -/
theorem claim8_witness :
    enumerateLSLocation (fun _ => SType.scalar 0) (fun x => x) (fun _ _ => none) 5
      ⟨[⟨9, []⟩], [(⟨9, []⟩, 0)], [(9, ⟨9, []⟩)]⟩ =
      ⟨[⟨9, []⟩], [(⟨9, []⟩, 0)], [(9, ⟨9, []⟩)]⟩ :=
  claim8 (fun _ => SType.scalar 0) (fun x => x) (fun _ _ => none) 5
    ⟨[⟨9, []⟩], [(⟨9, []⟩, 0)], [(9, ⟨9, []⟩)]⟩ rfl

/-- Claim C9: a node of class / reference type is skipped by both
bottom-up reductions — the value-reduction step and the
location-compaction step leave their state untouched at such a node,
whatever the class's own field structure — and both type expansions stop
at a class type. -/
theorem claim9 (E : TyEnv) (I : LSLocation) (t : SType) (acc : VMap × EmitState)
    (s : List LSLocation) (ht : locType E I = some t) (hc : t.isClass = true) :
    reduceNode E acc I = acc ∧ compactNode E s I = s ∧
    (∀ c fs, nodePathsOf (SType.cls c fs) = [[]] ∧ leafPathsOf (SType.cls c fs) = [[]]) := by
  have hcls : locIsClass E I = true := by
    unfold locIsClass
    rw [ht]
    exact hc
  refine ⟨?_, ?_, fun c fs => ⟨rfl, rfl⟩⟩
  · unfold reduceNode
    split
    · rfl
    · rw [hcls]
      simp
  · unfold compactNode
    split
    · rfl
    · rw [hcls]
      simp

/-- Witness for claim C9: a class type with one stored field, whose
first-level children are therefore non-empty, is nevertheless skipped by
both reduction steps. -/
theorem claim9_witness :
    reduceNode (fun _ => SType.cls 5 (.cons (.scalar 0) .nil)) ([], ⟨0, []⟩) ⟨0, []⟩ =
      ([], ⟨0, []⟩) ∧
    compactNode (fun _ => SType.cls 5 (.cons (.scalar 0) .nil)) [⟨0, [0]⟩] ⟨0, []⟩ =
      [⟨0, [0]⟩] :=
  ⟨(claim9 (fun _ => SType.cls 5 (.cons (.scalar 0) .nil)) ⟨0, []⟩
      (SType.cls 5 (.cons (.scalar 0) .nil)) ([], ⟨0, []⟩) [⟨0, [0]⟩] rfl rfl).1,
   (claim9 (fun _ => SType.cls 5 (.cons (.scalar 0) .nil)) ⟨0, []⟩
      (SType.cls 5 (.cons (.scalar 0) .nil)) ([], ⟨0, []⟩) [⟨0, [0]⟩] rfl rfl).2.1⟩

/-! Concrete scenario inputs shared by several claims: a two-field struct
type (the spec's Point) at base value 0, with SSA values 1 and 2
available. -/

/-- The typing environment of the Point scenarios: base 0 holds a struct
with two scalar fields. -/
def envPoint : TyEnv := fun b =>
  if b = 0 then SType.strct (.cons (.scalar 0) (.cons (.scalar 1) .nil)) else SType.scalar 9

/-- The location of the whole struct p. -/
def locP : LSLocation := ⟨0, []⟩

/-- Value map of the single-base scenario:
p.x holds Value(v1, [x]) and p.y holds Value(v1, [y]) with v1 = 1. -/
def mapSameBase : VMap := [(⟨0, [0]⟩, ⟨1, [0]⟩), (⟨0, [1]⟩, ⟨1, [1]⟩)]

/-- Claim C1: at an internal non-reference node with more than one
first-level child, all of whose childrens' Values share one value base
while the first child's Value has a non-empty path, the value-reduction
step installs the first child's Value with its last step stripped as the
parent's entry, removes all children's entries, and emits nothing; and on
the Point scenario with value map {p.x ↦ (v1,[x]), p.y ↦ (v1,[y])} the
whole reduction returns v1 with an unchanged emission state. -/
theorem claim1 :
    (∀ (E : TyEnv) (m : VMap) (s : EmitState) (I f0 : LSLocation) (rest : List LSLocation),
      locFirstLevel E I = f0 :: rest → rest ≠ [] → locIsClass E I = false →
      (vfindD m f0).path ≠ [] →
      (∀ x ∈ rest, (vfindD m x).base = (vfindD m f0).base) →
      reduceNode E (m, s) I =
        (removeLSLocations (vinsert m I (vfindD m f0).stripLastLevelProjection) (f0 :: rest), s)) ∧
    LSValue.reduce envPoint locP mapSameBase ⟨100, []⟩ =
      some (1, [(locP, ⟨1, []⟩)], ⟨100, []⟩) := by
  constructor
  · intro E m s I f0 rest h hrest hcls hpath hsame
    unfold reduceNode
    rw [h]
    have hcases : (rest.isEmpty && !(vfindD m f0).hasEmptyProjectionPath) = false := by
      simp [List.isEmpty_iff, hrest]
    have hall : rest.all (fun x => (vfindD m x).base == (vfindD m f0).base) = true := by
      rw [List.all_eq_true]
      intro x hx
      simp [hsame x hx]
    have hpe : (vfindD m f0).hasEmptyProjectionPath = false := by
      simp [LSValue.hasEmptyProjectionPath, List.isEmpty_iff, hpath]
    simp [hcls, hcases, hall, hpe, List.isEmpty_iff, hrest]
  · rfl

/-- Witness for claim C1: its universally quantified part instantiated on
the Point scenario's root node. -/
theorem claim1_witness :
    reduceNode envPoint (mapSameBase, ⟨100, []⟩) locP =
      (removeLSLocations
        (vinsert mapSameBase locP (vfindD mapSameBase ⟨0, [0]⟩).stripLastLevelProjection)
        [⟨0, [0]⟩, ⟨0, [1]⟩], ⟨100, []⟩) :=
  claim1.1 envPoint mapSameBase ⟨100, []⟩ locP ⟨0, [0]⟩ [⟨0, [1]⟩] rfl (by decide) rfl
    (by decide) (by decide)

/-! Emission bookkeeping for the aggregation branch of LSValue::reduce. -/

/-- Number of extraction instructions in an instruction list. -/
def countExtract (l : List Instr) : Nat :=
  (l.filter fun i => match i with | .extract _ _ _ => true | _ => false).length

/-- Number of aggregate-construction instructions in an instruction list. -/
def countAgg (l : List Instr) : Nat :=
  (l.filter fun i => match i with | .aggregate _ _ => true | _ => false).length

theorem createExtract_emits (p : List Nat) (b : Nat) (s : EmitState) :
    ∃ v ex, createExtract b p s = (v, ⟨s.next + p.length, s.instrs ++ ex⟩) ∧
      ex.length = p.length ∧ ∀ i ∈ ex, ∃ x y z, i = Instr.extract x y z := by
  induction p generalizing b s with
  | nil =>
    refine ⟨b, [], ?_, rfl, by simp⟩
    cases s
    simp [createExtract]
  | cons a p ih =>
    rcases ih s.next ⟨s.next + 1, s.instrs ++ [Instr.extract b a s.next]⟩ with
      ⟨v, ex', hEq, hLen, hAll⟩
    refine ⟨v, Instr.extract b a s.next :: ex', ?_, by simp [hLen], ?_⟩
    · have hstep : createExtract b (a :: p) s =
          createExtract s.next p ⟨s.next + 1, s.instrs ++ [Instr.extract b a s.next]⟩ := rfl
      rw [hstep, hEq]
      congr 1
      congr 1
      · simp only [List.length_cons]
        omega
      · simp
    · intro i hi
      rcases List.mem_cons.mp hi with rfl | hi
      · exact ⟨b, a, s.next, rfl⟩
      · exact hAll i hi

theorem matFold_emits (m : VMap) (cs : List LSLocation) (acc0 : List Nat) (s : EmitState) :
    ∃ vals ex,
      cs.foldl (fun (p : List Nat × EmitState) x =>
          let r := (vfindD m x).materialize p.2
          (p.1 ++ [r.1], r.2)) (acc0, s) =
        (acc0 ++ vals,
          ⟨s.next + ((cs.map (fun x => (vfindD m x).path.length)).sum), s.instrs ++ ex⟩) ∧
      vals.length = cs.length ∧
      ex.length = ((cs.map (fun x => (vfindD m x).path.length)).sum) ∧
      ∀ i ∈ ex, ∃ x y z, i = Instr.extract x y z := by
  induction cs generalizing acc0 s with
  | nil =>
    refine ⟨[], [], ?_, rfl, rfl, by simp⟩
    cases s
    simp
  | cons c cs ih =>
    rcases createExtract_emits (vfindD m c).path (vfindD m c).base s with ⟨v, ex0, hE, hL0, hA0⟩
    rcases ih (acc0 ++ [v]) ⟨s.next + (vfindD m c).path.length, s.instrs ++ ex0⟩ with
      ⟨vals', ex', hEq, hLenV, hLenE, hAll⟩
    refine ⟨v :: vals', ex0 ++ ex', ?_, by simp [hLenV], ?_, ?_⟩
    · have hstep : (c :: cs).foldl (fun (p : List Nat × EmitState) x =>
          let r := (vfindD m x).materialize p.2
          (p.1 ++ [r.1], r.2)) (acc0, s) =
          cs.foldl (fun (p : List Nat × EmitState) x =>
            let r := (vfindD m x).materialize p.2
            (p.1 ++ [r.1], r.2)) (acc0 ++ [((vfindD m c).materialize s).1],
              ((vfindD m c).materialize s).2) := rfl
      rw [hstep]
      have hmat : (vfindD m c).materialize s =
          (v, ⟨s.next + (vfindD m c).path.length, s.instrs ++ ex0⟩) := hE
      rw [hmat, hEq]
      congr 1
      · simp
      congr 1
      · simp only [List.map_cons, List.sum_cons]
        omega
      · simp
    · simp only [List.length_append, hL0, hLenE, List.map_cons, List.sum_cons]
    · intro i hi
      rcases List.mem_append.mp hi with hi | hi
      · exact hA0 i hi
      · exact hAll i hi

/-- The typing environment and inputs of the differing-base Point
scenario: p.x holds Value(v1, [x]) and p.y holds Value(v2, [y]) with
v1 = 1 and v2 = 2 distinct. -/
def mapDiffBase : VMap := [(⟨0, [0]⟩, ⟨1, [0]⟩), (⟨0, [1]⟩, ⟨2, [1]⟩)]

/-- Value map with one child value reachable only through a two-step
projection path: materializing it emits two chained extraction
instructions, not one. -/
def mapDeepPath : VMap := [(⟨0, [0]⟩, ⟨1, [0, 0]⟩), (⟨0, [1]⟩, ⟨2, []⟩)]

/-- Claim C2, amended: when neither no-instruction shortcut applies, the
value-reduction step materializes every first-level child — emitting one
extraction instruction per projection step of the child's Value path (a
child with an empty path reuses its base directly, and a child whose path
has k steps emits k chained extractions) — then emits exactly one
aggregate-construction instruction over the materialized children, and
the node's new entry is the aggregate's result with an empty projection
path; on the Point scenario with differing bases the whole reduction
emits one extraction per (single-step) child and one aggregate, and
returns the aggregate's result. -/
theorem claim2 :
    (∀ (E : TyEnv) (m : VMap) (s : EmitState) (I f0 : LSLocation) (rest : List LSLocation),
      locFirstLevel E I = f0 :: rest → locIsClass E I = false →
      (rest.isEmpty && !(vfindD m f0).hasEmptyProjectionPath) = false →
      (!rest.isEmpty &&
        rest.all (fun x => (vfindD m x).base == (vfindD m f0).base) &&
        !(vfindD m f0).hasEmptyProjectionPath) = false →
      ∃ vals ex,
        reduceNode E (m, s) I =
          (removeLSLocations
            (vinsert m I
              ⟨s.next + (((f0 :: rest).map (fun x => (vfindD m x).path.length)).sum), []⟩)
            (f0 :: rest),
           ⟨s.next + (((f0 :: rest).map (fun x => (vfindD m x).path.length)).sum) + 1,
            s.instrs ++ ex ++
              [Instr.aggregate vals
                (s.next + (((f0 :: rest).map (fun x => (vfindD m x).path.length)).sum))]⟩) ∧
        vals.length = (f0 :: rest).length ∧
        ex.length = (((f0 :: rest).map (fun x => (vfindD m x).path.length)).sum) ∧
        (∀ i ∈ ex, ∃ x y z, i = Instr.extract x y z)) ∧
    LSValue.reduce envPoint locP mapDiffBase ⟨100, []⟩ =
      some (102, [(locP, ⟨102, []⟩)],
        ⟨103, [Instr.extract 1 0 100, Instr.extract 2 1 101,
               Instr.aggregate [100, 101] 102]⟩) := by
  constructor
  · intro E m s I f0 rest h hcls hc1 hc2
    rcases matFold_emits m (f0 :: rest) [] s with ⟨vals, ex, hEq, hLenV, hLenE, hAll⟩
    refine ⟨vals, ex, ?_, hLenV, hLenE, hAll⟩
    unfold reduceNode
    rw [h]
    simp only [hcls, Bool.false_eq_true, if_false, hc1, hc2]
    rw [hEq]
    simp [createAgg]
  · rfl

/-- Witness for claim C2: the amended general statement instantiated on
the differing-base Point scenario's root node. -/
theorem claim2_witness :
    ∃ vals ex,
      reduceNode envPoint (mapDiffBase, ⟨100, []⟩) locP =
        (removeLSLocations
          (vinsert mapDiffBase locP
            ⟨100 + ((([⟨0, [0]⟩, ⟨0, [1]⟩] : List LSLocation).map
              (fun x => (vfindD mapDiffBase x).path.length)).sum), []⟩)
          [⟨0, [0]⟩, ⟨0, [1]⟩],
         ⟨100 + ((([⟨0, [0]⟩, ⟨0, [1]⟩] : List LSLocation).map
              (fun x => (vfindD mapDiffBase x).path.length)).sum) + 1,
          [] ++ ex ++
            [Instr.aggregate vals
              (100 + ((([⟨0, [0]⟩, ⟨0, [1]⟩] : List LSLocation).map
                (fun x => (vfindD mapDiffBase x).path.length)).sum))]⟩) ∧
      vals.length = ([⟨0, [0]⟩, ⟨0, [1]⟩] : List LSLocation).length ∧
      ex.length = ((([⟨0, [0]⟩, ⟨0, [1]⟩] : List LSLocation).map
        (fun x => (vfindD mapDiffBase x).path.length)).sum) ∧
      (∀ i ∈ ex, ∃ x y z, i = Instr.extract x y z) :=
  claim2.1 envPoint mapDiffBase ⟨100, []⟩ locP ⟨0, [0]⟩ [⟨0, [1]⟩] rfl rfl (by decide)
    (by decide)

/-- Counterexample to claim C2 as stated: with value map
{p.x ↦ Value(v1, [0, 0]), p.y ↦ Value(v2, [])} the aggregation branch
applies and exactly one first-level child has a non-empty projection
path, yet the reduction emits two extraction instructions (one per
projection step), not one per such child. -/
theorem claim2_counterexample :
    LSValue.reduce envPoint locP mapDeepPath ⟨100, []⟩ =
      some (102, [(locP, ⟨102, []⟩)],
        ⟨103, [Instr.extract 1 0 100, Instr.extract 100 0 101,
               Instr.aggregate [101, 2] 102]⟩) ∧
    ((locFirstLevel envPoint locP).filter
      (fun x => !(vfindD mapDeepPath x).hasEmptyProjectionPath)).length = 1 ∧
    ¬ (countExtract [Instr.extract 1 0 100, Instr.extract 100 0 101,
          Instr.aggregate [101, 2] 102] =
        ((locFirstLevel envPoint locP).filter
          (fun x => !(vfindD mapDeepPath x).hasEmptyProjectionPath)).length) := by
  refine ⟨rfl, rfl, by decide⟩


/-! Enumerator invariants: the vault and the index map stay consistent. -/

/-- Consistency of an enumeration state: every vault position is recorded
in the index map with that position, and every index-map entry points
back at its vault position. -/
def WellIndexed (st : EnumState) : Prop :=
  (∀ n L, st.locations.get? n = some L → findIdx st.indexMap L = some n) ∧
  (∀ L n, findIdx st.indexMap L = some n → st.locations.get? n = some L)

theorem findIdx_append (A B : List (LSLocation × Nat)) (k : LSLocation) :
    findIdx (A ++ B) k = match findIdx A k with
      | some n => some n
      | none => findIdx B k := by
  induction A with
  | nil => rfl
  | cons e es ih =>
    by_cases h : e.1 = k
    · simp [findIdx, h]
    · simp [findIdx, h, ih]

theorem wellIndexed_nodup (st : EnumState) (h : WellIndexed st) : st.locations.Nodup := by
  rw [List.nodup_iff_injective_get]
  intro i j hij
  have h1 := h.1 i.1 (st.locations.get i) (by rw [List.get?_eq_get i.2, Fin.eta])
  have h2 := h.1 j.1 (st.locations.get j) (by rw [List.get?_eq_get j.2, Fin.eta])
  rw [hij] at h1
  rw [h1] at h2
  exact Fin.ext (Option.some.inj h2)

theorem enumStep_wellIndexed (st : EnumState) (Loc : LSLocation) (h : WellIndexed st) :
    WellIndexed (enumStep st Loc) ∧ st.locations <+: (enumStep st Loc).locations ∧
    st.indexMap <+: (enumStep st Loc).indexMap ∧ (enumStep st Loc).baseMap = st.baseMap := by
  by_cases hm : (findIdx st.indexMap Loc).isSome
  · rw [enumStep, if_pos hm]
    exact ⟨h, List.prefix_refl _, List.prefix_refl _, rfl⟩
  · have hnone : findIdx st.indexMap Loc = none := Option.not_isSome_iff_eq_none.mp hm
    rw [enumStep, if_neg hm]
    refine ⟨⟨?_, ?_⟩, List.prefix_append _ _, List.prefix_append _ _, rfl⟩
    · intro n L hg
      by_cases hn : n < st.locations.length
      · rw [List.get?_append hn] at hg
        rw [findIdx_append, h.1 n L hg]
      · have hlen : n < st.locations.length + 1 := by
          have := List.get?_eq_some.mp hg
          simpa using this.1
        have hn' : n = st.locations.length := by omega
        subst hn'
        rw [List.get?_append_right (le_refl _)] at hg
        simp only [Nat.sub_self, List.get?] at hg
        obtain rfl : Loc = L := Option.some.inj hg
        rw [findIdx_append, hnone]
        simp [findIdx]
    · intro L n hf
      rw [findIdx_append] at hf
      rcases hold : findIdx st.indexMap L with _ | k
      · rw [hold] at hf
        simp only [findIdx] at hf
        by_cases hLL : Loc = L
        · rw [if_pos hLL] at hf
          obtain rfl : st.locations.length = n := Option.some.inj hf
          rcases hLL with rfl
          rw [List.get?_append_right (le_refl _)]
          simp [List.get?]
        · rw [if_neg hLL] at hf
          cases hf
      · rw [hold] at hf
        obtain rfl : k = n := Option.some.inj hf
        have hg := h.2 L k hold
        have hn : k < st.locations.length := (List.get?_eq_some.mp hg).1
        rw [List.get?_append hn]
        exact hg

theorem enumFold_wellIndexed (L : List LSLocation) (st : EnumState) (h : WellIndexed st) :
    WellIndexed (L.foldl enumStep st) ∧ st.locations <+: (L.foldl enumStep st).locations ∧
    st.indexMap <+: (L.foldl enumStep st).indexMap ∧
    (L.foldl enumStep st).baseMap = st.baseMap := by
  induction L generalizing st with
  | nil => exact ⟨h, List.prefix_refl _, List.prefix_refl _, rfl⟩
  | cons Loc L ih =>
    rcases enumStep_wellIndexed st Loc h with ⟨h1, h2, h3, h4⟩
    rcases ih (enumStep st Loc) h1 with ⟨g1, g2, g3, g4⟩
    exact ⟨g1, h2.trans g2, h3.trans g3, by rw [List.foldl_cons, g4, h4]⟩

/-- Claim C10: enumerateLSLocation preserves vault / index-map
consistency: starting from a consistent state, the resulting state is
consistent again, the previous vault and index map are prefixes of the
new ones (locations are only appended and already-assigned positions
never change), the vault holds each location at most once, and every
index-map entry equals its location's vault position. -/
theorem claim10 (E : TyEnv) (uo : Nat → Nat) (pp : Nat → Nat → Option (List Nat))
    (Mem : Nat) (st : EnumState) (h : WellIndexed st) :
    WellIndexed (enumerateLSLocation E uo pp Mem st) ∧
    st.locations <+: (enumerateLSLocation E uo pp Mem st).locations ∧
    st.indexMap <+: (enumerateLSLocation E uo pp Mem st).indexMap ∧
    (enumerateLSLocation E uo pp Mem st).locations.Nodup := by
  have hmain : WellIndexed (enumerateLSLocation E uo pp Mem st) ∧
      st.locations <+: (enumerateLSLocation E uo pp Mem st).locations ∧
      st.indexMap <+: (enumerateLSLocation E uo pp Mem st).indexMap := by
    unfold enumerateLSLocation
    split
    · exact ⟨h, List.prefix_refl _, List.prefix_refl _⟩
    · rcases hpp : pp (uo Mem) Mem with _ | P
      · exact ⟨h, List.prefix_refl _, List.prefix_refl _⟩
      · have h1 : WellIndexed (EnumState.mk st.locations st.indexMap
            (st.baseMap ++ [(Mem, LSLocation.mk (uo Mem) P)])) := h
        rcases enumFold_wellIndexed (LSLocation.expand E (LSLocation.mk (uo Mem) P))
          (EnumState.mk st.locations st.indexMap
            (st.baseMap ++ [(Mem, LSLocation.mk (uo Mem) P)])) h1 with ⟨g1, g2, g3, _⟩
        exact ⟨g1, g2, g3⟩
  exact ⟨hmain.1, hmain.2.1, hmain.2.2,
    wellIndexed_nodup (enumerateLSLocation E uo pp Mem st) hmain.1⟩

/-- Witness for claim C10: enumerating a concrete address from the empty
(trivially consistent) state. -/
theorem claim10_witness :
    WellIndexed (enumerateLSLocation envPoint (fun _ => 0) (fun _ _ => some []) 7
      ⟨[], [], []⟩) ∧
    ([] : List LSLocation) <+: (enumerateLSLocation envPoint (fun _ => 0) (fun _ _ => some []) 7
      ⟨[], [], []⟩).locations ∧
    ([] : List (LSLocation × Nat)) <+:
      (enumerateLSLocation envPoint (fun _ => 0) (fun _ _ => some []) 7
        ⟨[], [], []⟩).indexMap ∧
    (enumerateLSLocation envPoint (fun _ => 0) (fun _ _ => some []) 7
      ⟨[], [], []⟩).locations.Nodup :=
  claim10 envPoint (fun _ => 0) (fun _ _ => some []) 7 ⟨[], [], []⟩
    ⟨fun n L hg => by simp [List.get?] at hg, fun L n hf => by simp [findIdx] at hf⟩


/-! Structure of the node expansion: every element of a field block is a
non-empty path starting with its field index, and within the expansion a
later node's path is never a prefix of an earlier node's path (parents
come first, so reversing the list visits children before parents). -/

theorem nodePathsFields_head (fs : SFields) (k : Nat) :
    ∀ q ∈ nodePathsFields k fs, ∃ i p, q = i :: p ∧ k ≤ i := by
  cases fs with
  | nil => intro q hq; cases hq
  | cons f fs =>
    intro q hq
    rcases List.mem_append.mp hq with hq | hq
    · rcases List.mem_map.mp hq with ⟨p, _, rfl⟩
      exact ⟨k, p, rfl, le_refl k⟩
    · rcases nodePathsFields_head fs (k + 1) q hq with ⟨i, p, rfl, hk⟩
      exact ⟨i, p, rfl, by omega⟩

mutual
theorem nodePaths_pairwise (t : SType) :
    (nodePathsOf t).Pairwise (fun a b => ¬ (b <+: a)) := by
  cases t with
  | scalar c => simp [nodePathsOf]
  | cls c fs => simp [nodePathsOf]
  | strct fs =>
    rw [nodePathsOf, List.pairwise_cons]
    constructor
    · intro q hq hpre
      rcases nodePathsFields_head fs 0 q hq with ⟨i, p, rfl, _⟩
      simp at hpre
    · exact nodePathsFields_pairwise 0 fs

theorem nodePathsFields_pairwise (k : Nat) (fs : SFields) :
    (nodePathsFields k fs).Pairwise (fun a b => ¬ (b <+: a)) := by
  cases fs with
  | nil => simp [nodePathsFields]
  | cons f fs =>
    rw [nodePathsFields, List.pairwise_append]
    refine ⟨?_, nodePathsFields_pairwise (k + 1) fs, ?_⟩
    · rw [List.pairwise_map]
      have hp := nodePaths_pairwise f
      refine hp.imp ?_
      intro a b hab hpre
      exact hab ((List.cons_prefix_cons.mp hpre).2)
    · intro a ha b hb hpre
      rcases List.mem_map.mp ha with ⟨p, _, rfl⟩
      rcases nodePathsFields_head fs (k + 1) b hb with ⟨i, q, rfl, hk⟩
      rcases List.cons_prefix_cons.mp hpre with ⟨h1, _⟩
      omega
end

/-! Equations and shape facts for the location-compaction step. -/

theorem compactNode_eq_nil (E : TyEnv) (s : List LSLocation) (I : LSLocation)
    (h : locFirstLevel E I = []) : compactNode E s I = s := by
  unfold compactNode
  rw [h]

theorem compactNode_eq_cons (E : TyEnv) (s : List LSLocation) (I f0 : LSLocation)
    (rest : List LSLocation) (h : locFirstLevel E I = f0 :: rest) :
    compactNode E s I =
      if locIsClass E I = true then s
      else if ((f0 :: rest).all (fun x => decide (x ∈ s))) = true then
        sInsert ((f0 :: rest).foldl sErase s) I
      else s := by
  unfold compactNode
  rw [h]

theorem locFirstLevel_shape (E : TyEnv) (I : LSLocation) :
    ∀ x ∈ locFirstLevel E I, ∃ i, x = LSLocation.mk I.base (I.path ++ [i]) := by
  intro x hx
  unfold locFirstLevel at hx
  rcases h : locType E I with _ | t
  · rw [h] at hx; cases hx
  · rw [h] at hx
    rcases List.mem_map.mp hx with ⟨i, _, rfl⟩
    exact ⟨i, rfl⟩

theorem child_ne_self (b : Nat) (p : List Nat) (i : Nat) :
    LSLocation.mk b (p ++ [i]) ≠ LSLocation.mk b p := by
  intro h
  injection h with h1 h2
  have := congrArg List.length h2
  simp at this

theorem foldl_sErase_eq (L : List LSLocation) (s : List LSLocation) :
    L.foldl sErase s = s.filter (fun y => decide (y ∉ L)) := by
  induction L generalizing s with
  | nil => simp
  | cons x L ih =>
    rw [List.foldl_cons, ih]
    unfold sErase
    rw [List.filter_filter]
    apply List.filter_congr
    intro y _
    by_cases h1 : y = x <;> by_cases h2 : y ∈ L <;> simp [h1, h2]

theorem mem_sInsert (s : List LSLocation) (a x : LSLocation) :
    x ∈ sInsert s a ↔ x ∈ s ∨ x = a := by
  unfold sInsert
  by_cases h : a ∈ s
  · rw [if_pos h]
    constructor
    · exact Or.inl
    · rintro (hx | rfl)
      · exact hx
      · exact h
  · rw [if_neg h]
    simp

theorem compactNode_mem (E : TyEnv) (s : List LSLocation) (I : LSLocation) :
    ∀ x ∈ compactNode E s I, x ∈ s ∨ x = I := by
  intro x hx
  rcases hFL : locFirstLevel E I with _ | ⟨f0, rest⟩
  · rw [compactNode_eq_nil E s I hFL] at hx
    exact Or.inl hx
  · rw [compactNode_eq_cons E s I f0 rest hFL] at hx
    by_cases hcls : locIsClass E I = true
    · rw [if_pos hcls] at hx
      exact Or.inl hx
    · rw [if_neg hcls] at hx
      by_cases hall : ((f0 :: rest).all (fun x => decide (x ∈ s))) = true
      · rw [if_pos hall] at hx
        rcases (mem_sInsert _ _ _).mp hx with hx | rfl
        · rw [foldl_sErase_eq] at hx
          exact Or.inl (List.mem_filter.mp hx).1
        · exact Or.inr rfl
      · rw [if_neg hall] at hx
        exact Or.inl hx

theorem foldl_compactNode_no_new (E : TyEnv) (R : List LSLocation) (s : List LSLocation)
    (x : LSLocation) (hs : x ∉ s) (hR : x ∉ R) : x ∉ R.foldl (compactNode E) s := by
  induction R generalizing s with
  | nil => exact hs
  | cons I R ih =>
    rw [List.foldl_cons]
    refine ih _ ?_ (fun hmem => hR (List.mem_cons_of_mem I hmem))
    intro hx
    rcases compactNode_mem E s I x hx with hx | rfl
    · exact hs hx
    · exact hR (List.mem_cons_self _ _)

theorem compactNode_eq_of_not_all (E : TyEnv) (s : List LSLocation) (I f0 : LSLocation)
    (rest : List LSLocation) (hFL : locFirstLevel E I = f0 :: rest)
    (hna : ((f0 :: rest).all (fun x => decide (x ∈ s))) = false) :
    compactNode E s I = s := by
  rw [compactNode_eq_cons E s I f0 rest hFL]
  by_cases hcls : locIsClass E I = true
  · rw [if_pos hcls]
  · rw [if_neg hcls, if_neg (by rw [hna]; exact Bool.false_ne_true)]

theorem compact_fold_stable (E : TyEnv) (R : List LSLocation)
    (hR : R.Pairwise (fun a b => ¬ (a.path <+: b.path))) (s : List LSLocation) :
    ∀ I ∈ R, compactNode E (R.foldl (compactNode E) s) I = R.foldl (compactNode E) s := by
  intro I hI
  rcases List.append_of_mem hI with ⟨R1, R2, rfl⟩
  rcases hFL : locFirstLevel E I with _ | ⟨f0, rest⟩
  · exact compactNode_eq_nil E _ I hFL
  · by_cases hcls : locIsClass E I = true
    · rw [compactNode_eq_cons E _ I f0 rest hFL, if_pos hcls]
    · -- we show some first-level child of I is absent from the final set
      have hsplit : (R1 ++ I :: R2).foldl (compactNode E) s =
          R2.foldl (compactNode E) (compactNode E (R1.foldl (compactNode E) s) I) := by
        rw [List.foldl_append, List.foldl_cons]
      have hR2 : ∀ J ∈ R2, ¬ (I.path <+: J.path) := by
        have h2 := (List.pairwise_append.mp hR).2.1
        exact (List.pairwise_cons.mp h2).1
      have hchildR2 : ∀ c ∈ locFirstLevel E I, c ∉ R2 := by
        intro c hc hmem
        rcases locFirstLevel_shape E I c hc with ⟨j, rfl⟩
        exact hR2 _ hmem (List.prefix_append _ _)
      set s1 := R1.foldl (compactNode E) s with hs1
      have habsent : ∃ c ∈ (f0 :: rest), c ∉ (R1 ++ I :: R2).foldl (compactNode E) s := by
        rw [hsplit]
        by_cases hall : ((f0 :: rest).all (fun x => decide (x ∈ s1))) = true
        · -- the step at I erased all children, and nothing after re-adds them
          refine ⟨f0, List.mem_cons_self _ _, ?_⟩
          have hstepI : compactNode E s1 I = sInsert ((f0 :: rest).foldl sErase s1) I := by
            rw [compactNode_eq_cons E s1 I f0 rest hFL, if_neg hcls, if_pos hall]
          refine foldl_compactNode_no_new E R2 _ _ ?_
            (hchildR2 f0 (by rw [hFL]; exact List.mem_cons_self _ _))
          rw [hstepI]
          intro hmem
          rcases (mem_sInsert _ _ _).mp hmem with hmem | heq
          · rw [foldl_sErase_eq] at hmem
            have h3 := (List.mem_filter.mp hmem).2
            simp only [decide_eq_true_eq] at h3
            exact h3 (List.mem_cons_self _ _)
          · rcases locFirstLevel_shape E I f0
                (by rw [hFL]; exact List.mem_cons_self _ _) with ⟨i, hf0⟩
            rw [hf0] at heq
            exact child_ne_self I.base I.path i heq
        · -- some child was already absent before the (no-op) step at I
          have hna : ((f0 :: rest).all (fun x => decide (x ∈ s1))) = false :=
            Bool.eq_false_iff.mpr hall
          rcases List.all_eq_false.mp hna with ⟨c, hc, hcs⟩
          simp only [decide_eq_true_eq] at hcs
          refine ⟨c, hc, ?_⟩
          rw [compactNode_eq_of_not_all E s1 I f0 rest hFL hna]
          exact foldl_compactNode_no_new E R2 s1 c hcs (hchildR2 c (by rw [hFL]; exact hc))
      rcases habsent with ⟨c, hc, hcabs⟩
      have hnaF : ((f0 :: rest).all
          (fun x => decide (x ∈ (R1 ++ I :: R2).foldl (compactNode E) s))) = false := by
        apply List.all_eq_false.mpr
        exact ⟨c, hc, by simpa using hcabs⟩
      exact compactNode_eq_of_not_all E _ I f0 rest hFL hnaF

theorem foldl_of_stable (E : TyEnv) (R : List LSLocation) (fin : List LSLocation)
    (h : ∀ I ∈ R, compactNode E fin I = fin) : R.foldl (compactNode E) fin = fin := by
  induction R with
  | nil => rfl
  | cons I R ih =>
    rw [List.foldl_cons, h I (List.mem_cons_self _ _)]
    exact ih (fun J hJ => h J (List.mem_cons_of_mem I hJ))

/-- Claim C7: location compaction is idempotent — applying
LSLocation.reduce twice with the same base yields exactly the result of
applying it once, for every typing environment, base location and
location set. -/
theorem claim7 (E : TyEnv) (Base : LSLocation) (s : List LSLocation) :
    LSLocation.reduce E Base (LSLocation.reduce E Base s) = LSLocation.reduce E Base s := by
  unfold LSLocation.reduce
  apply foldl_of_stable
  apply compact_fold_stable
  unfold nodeLocs
  rcases h : locType E Base with _ | t
  · simp
  · rw [List.pairwise_reverse, List.pairwise_map]
    have hp := nodePaths_pairwise t
    refine hp.imp ?_
    intro a b hab hpre
    exact hab ((List.prefix_append_right_inj Base.path).mp hpre)


/-! Membership characterizations of the expansions and typing lemmas. -/

theorem SFields.get?_lt (fs : SFields) (i : Nat) (f : SType) (h : fs.get? i = some f) :
    i < fs.length := by
  cases fs with
  | nil => cases h
  | cons g fs =>
    cases i with
    | zero => simp only [SFields.length]; omega
    | succ n =>
      have := SFields.get?_lt fs n f h
      simp only [SFields.length]
      omega

theorem SFields.lt_get? (fs : SFields) (i : Nat) (h : i < fs.length) :
    ∃ f, fs.get? i = some f := by
  cases fs with
  | nil => simp [SFields.length] at h
  | cons g fs =>
    cases i with
    | zero => exact ⟨g, rfl⟩
    | succ n =>
      apply SFields.lt_get? fs n
      simp [SFields.length] at h
      omega

theorem subType_append (p q : List Nat) (t : SType) :
    subType t (p ++ q) = (subType t p).bind (fun u => subType u q) := by
  induction p generalizing t with
  | nil => simp [subType]
  | cons i p ih =>
    cases t with
    | scalar c => simp [subType]
    | strct fs =>
      rcases h : fs.get? i with _ | f <;> simp [subType, h, ih]
    | cls c fs =>
      rcases h : fs.get? i with _ | f <;> simp [subType, h, ih]

theorem subType_strct_single (fs : SFields) (i : Nat) :
    subType (SType.strct fs) [i] = fs.get? i := by
  rcases h : fs.get? i with _ | f <;> simp [subType, h]

theorem nil_mem_nodePathsOf (t : SType) : [] ∈ nodePathsOf t := by
  cases t <;> simp [nodePathsOf]

theorem decompLeaf_nodePaths (t : SType) (h : decompLeaf t = true) :
    nodePathsOf t = [[]] := by
  cases t with
  | scalar c => rfl
  | cls c fs => rfl
  | strct fs =>
    cases fs with
    | nil => rfl
    | cons f fs => simp [decompLeaf, SType.isClass, SType.firstLevelCount, SFields.length] at h

theorem decompLeaf_leafPaths (t : SType) (h : decompLeaf t = true) :
    leafPathsOf t = [[]] := by
  cases t with
  | scalar c => rfl
  | cls c fs => rfl
  | strct fs =>
    cases fs with
    | nil => rfl
    | cons f fs => simp [decompLeaf, SType.isClass, SType.firstLevelCount, SFields.length] at h

theorem leafPathsFields_head (fs : SFields) (k : Nat) :
    ∀ q ∈ leafPathsFields k fs, ∃ i p, q = i :: p ∧ k ≤ i := by
  cases fs with
  | nil => intro q hq; cases hq
  | cons f fs =>
    intro q hq
    rcases List.mem_append.mp hq with hq | hq
    · rcases List.mem_map.mp hq with ⟨p, _, rfl⟩
      exact ⟨k, p, rfl, le_refl k⟩
    · rcases leafPathsFields_head fs (k + 1) q hq with ⟨i, p, rfl, hk⟩
      exact ⟨i, p, rfl, by omega⟩

theorem nil_mem_leafPathsOf_iff (t : SType) :
    [] ∈ leafPathsOf t ↔ decompLeaf t = true := by
  cases t with
  | scalar c => simp [leafPathsOf, decompLeaf, SType.isClass, SType.firstLevelCount]
  | cls c fs => simp [leafPathsOf, decompLeaf, SType.isClass]
  | strct fs =>
    cases fs with
    | nil => simp [leafPathsOf, decompLeaf, SType.isClass, SType.firstLevelCount, SFields.length]
    | cons f fs =>
      constructor
      · intro h
        rcases leafPathsFields_head (SFields.cons f fs) 0 [] h with ⟨i, p, hip, _⟩
        cases hip
      · intro h
        simp [decompLeaf, SType.isClass, SType.firstLevelCount, SFields.length] at h

theorem mem_nodePathsFields (fs : SFields) (k : Nat) (q : List Nat) :
    q ∈ nodePathsFields k fs ↔
      ∃ i f p, fs.get? i = some f ∧ q = (k + i) :: p ∧ p ∈ nodePathsOf f := by
  cases fs with
  | nil =>
    simp only [nodePathsFields]
    constructor
    · intro h; cases h
    · rintro ⟨i, f, p, h, _, _⟩; cases h
  | cons f fs =>
    constructor
    · intro hq
      rcases List.mem_append.mp hq with hq | hq
      · rcases List.mem_map.mp hq with ⟨p, hp, rfl⟩
        exact ⟨0, f, p, rfl, by simp, hp⟩
      · rcases (mem_nodePathsFields fs (k + 1) q).mp hq with ⟨i, g, p, hg, rfl, hp⟩
        exact ⟨i + 1, g, p, hg, by simp; omega, hp⟩
    · rintro ⟨i, g, p, hg, rfl, hp⟩
      cases i with
      | zero =>
        have hfg : f = g := by simpa [SFields.get?] using hg
        rcases hfg with rfl
        exact List.mem_append.mpr (Or.inl (List.mem_map.mpr ⟨p, hp, by simp⟩))
      | succ n =>
        refine List.mem_append.mpr (Or.inr ?_)
        have := (mem_nodePathsFields fs (k + 1) ((k + 1 + n) :: p)).mpr ⟨n, g, p, hg, rfl, hp⟩
        have harith : k + (n + 1) = k + 1 + n := by omega
        rw [harith]
        exact this

theorem mem_leafPathsFields (fs : SFields) (k : Nat) (q : List Nat) :
    q ∈ leafPathsFields k fs ↔
      ∃ i f p, fs.get? i = some f ∧ q = (k + i) :: p ∧ p ∈ leafPathsOf f := by
  cases fs with
  | nil =>
    simp only [leafPathsFields]
    constructor
    · intro h; cases h
    · rintro ⟨i, f, p, h, _, _⟩; cases h
  | cons f fs =>
    constructor
    · intro hq
      rcases List.mem_append.mp hq with hq | hq
      · rcases List.mem_map.mp hq with ⟨p, hp, rfl⟩
        exact ⟨0, f, p, rfl, by simp, hp⟩
      · rcases (mem_leafPathsFields fs (k + 1) q).mp hq with ⟨i, g, p, hg, rfl, hp⟩
        exact ⟨i + 1, g, p, hg, by simp; omega, hp⟩
    · rintro ⟨i, g, p, hg, rfl, hp⟩
      cases i with
      | zero =>
        have hfg : f = g := by simpa [SFields.get?] using hg
        rcases hfg with rfl
        exact List.mem_append.mpr (Or.inl (List.mem_map.mpr ⟨p, hp, by simp⟩))
      | succ n =>
        refine List.mem_append.mpr (Or.inr ?_)
        have := (mem_leafPathsFields fs (k + 1) ((k + 1 + n) :: p)).mpr ⟨n, g, p, hg, rfl, hp⟩
        have harith : k + (n + 1) = k + 1 + n := by omega
        rw [harith]
        exact this

mutual
theorem leafPaths_sub_nodePaths (t : SType) :
    ∀ p ∈ leafPathsOf t, p ∈ nodePathsOf t := by
  cases t with
  | scalar c => intro p hp; exact hp
  | cls c fs => intro p hp; exact hp
  | strct fs =>
    cases fs with
    | nil => intro p hp; exact hp
    | cons f fs =>
      intro p hp
      exact List.mem_cons_of_mem _ (leafPathsFields_sub_nodePathsFields 0 (.cons f fs) p hp)

theorem leafPathsFields_sub_nodePathsFields (k : Nat) (fs : SFields) :
    ∀ p ∈ leafPathsFields k fs, p ∈ nodePathsFields k fs := by
  cases fs with
  | nil => intro p hp; cases hp
  | cons f fs =>
    intro p hp
    rcases List.mem_append.mp hp with hp | hp
    · rcases List.mem_map.mp hp with ⟨q, hq, rfl⟩
      exact List.mem_append.mpr (Or.inl
        (List.mem_map.mpr ⟨q, leafPaths_sub_nodePaths f q hq, rfl⟩))
    · exact List.mem_append.mpr (Or.inr (leafPathsFields_sub_nodePathsFields (k + 1) fs p hp))
end

theorem locFirstLevel_of_type (E : TyEnv) (b : Nat) (π : List Nat) (t : SType)
    (hT : subType (E b) π = some t) :
    locFirstLevel E (LSLocation.mk b π) =
      (List.range t.firstLevelCount).map (fun i => LSLocation.mk b (π ++ [i])) := by
  unfold locFirstLevel locType
  simp [hT]

theorem locIsClass_of_type (E : TyEnv) (b : Nat) (π : List Nat) (t : SType)
    (hT : subType (E b) π = some t) :
    locIsClass E (LSLocation.mk b π) = t.isClass := by
  unfold locIsClass locType
  simp [hT]


/-! Bookkeeping for the bottom-up collapse of a fully-covered subtree. -/

/-- Erasing a whole list of locations from a set (the combined effect of
the erase loop). -/
def eraseSet (s L : List LSLocation) : List LSLocation :=
  s.filter (fun x => decide (x ∉ L))

/-- The leaf locations of the subtree rooted at path `π` of base `b`. -/
def leafLocsAt (b : Nat) (π : List Nat) (t : SType) : List LSLocation :=
  (leafPathsOf t).map (fun p => LSLocation.mk b (π ++ p))

/-- The node locations of the subtree rooted at path `π` of base `b`. -/
def nodeLocsAt (b : Nat) (π : List Nat) (t : SType) : List LSLocation :=
  (nodePathsOf t).map (fun p => LSLocation.mk b (π ++ p))

/-- The node locations contributed by a list of fields starting at index
`k` under path `π`. -/
def fieldBlockLocs (b : Nat) (π : List Nat) (k : Nat) (fs : SFields) : List LSLocation :=
  (nodePathsFields k fs).map (fun p => LSLocation.mk b (π ++ p))

/-- The roots of the non-leaf (promoted) fields starting at index `k`. -/
def promotedLocs (b : Nat) (π : List Nat) (k : Nat) : SFields → List LSLocation
  | .nil => []
  | .cons f fs =>
    (if decompLeaf f = true then [] else [LSLocation.mk b (π ++ [k])]) ++
      promotedLocs b π (k + 1) fs

/-- The leaf locations strictly inside the non-leaf fields starting at
index `k`. -/
def innerLeafLocs (b : Nat) (π : List Nat) (k : Nat) : SFields → List LSLocation
  | .nil => []
  | .cons f fs =>
    (if decompLeaf f = true then []
     else (leafPathsOf f).map (fun p => LSLocation.mk b (π ++ (k :: p)))) ++
      innerLeafLocs b π (k + 1) fs

/-- The node locations of the non-leaf fields starting at index `k`. -/
def innerNodeLocs (b : Nat) (π : List Nat) (k : Nat) : SFields → List LSLocation
  | .nil => []
  | .cons f fs =>
    (if decompLeaf f = true then []
     else (nodePathsOf f).map (fun p => LSLocation.mk b (π ++ (k :: p)))) ++
      innerNodeLocs b π (k + 1) fs

theorem promotedLocs_mem (fs : SFields) (b : Nat) (π : List Nat) (k : Nat) (x : LSLocation) :
    x ∈ promotedLocs b π k fs ↔
      ∃ i f, fs.get? i = some f ∧ decompLeaf f = false ∧
        x = LSLocation.mk b (π ++ [k + i]) := by
  cases fs with
  | nil =>
    simp only [promotedLocs]
    constructor
    · intro h; cases h
    · rintro ⟨i, f, h, _, _⟩; cases h
  | cons f fs =>
    rw [promotedLocs, List.mem_append]
    constructor
    · rintro (hx | hx)
      · by_cases hd : decompLeaf f = true
        · rw [if_pos hd] at hx; cases hx
        · rw [if_neg hd] at hx
          rcases List.mem_singleton.mp hx with rfl
          exact ⟨0, f, rfl, Bool.eq_false_iff.mpr hd, by simp⟩
      · rcases (promotedLocs_mem fs b π (k + 1) x).mp hx with ⟨i, g, hg, hd, rfl⟩
        exact ⟨i + 1, g, hg, hd, by rw [show k + (i + 1) = k + 1 + i from by omega]⟩
    · rintro ⟨i, g, hg, hd, rfl⟩
      cases i with
      | zero =>
        have hfg : f = g := by simpa [SFields.get?] using hg
        rcases hfg with rfl
        left
        rw [if_neg (Bool.eq_false_iff.mp hd)]
        simp
      | succ n =>
        right
        rw [show k + (n + 1) = k + 1 + n from by omega]
        exact (promotedLocs_mem fs b π (k + 1) _).mpr ⟨n, g, hg, hd, rfl⟩

theorem innerLeafLocs_mem (fs : SFields) (b : Nat) (π : List Nat) (k : Nat) (x : LSLocation) :
    x ∈ innerLeafLocs b π k fs ↔
      ∃ i f q, fs.get? i = some f ∧ decompLeaf f = false ∧ q ∈ leafPathsOf f ∧
        x = LSLocation.mk b (π ++ ((k + i) :: q)) := by
  cases fs with
  | nil =>
    simp only [innerLeafLocs]
    constructor
    · intro h; cases h
    · rintro ⟨i, f, q, h, _, _, _⟩; cases h
  | cons f fs =>
    rw [innerLeafLocs, List.mem_append]
    constructor
    · rintro (hx | hx)
      · by_cases hd : decompLeaf f = true
        · rw [if_pos hd] at hx; cases hx
        · rw [if_neg hd] at hx
          rcases List.mem_map.mp hx with ⟨q, hq, rfl⟩
          exact ⟨0, f, q, rfl, Bool.eq_false_iff.mpr hd, hq, by simp⟩
      · rcases (innerLeafLocs_mem fs b π (k + 1) x).mp hx with ⟨i, g, q, hg, hd, hq, rfl⟩
        exact ⟨i + 1, g, q, hg, hd, hq, by rw [show k + (i + 1) = k + 1 + i from by omega]⟩
    · rintro ⟨i, g, q, hg, hd, hq, rfl⟩
      cases i with
      | zero =>
        have hfg : f = g := by simpa [SFields.get?] using hg
        rcases hfg with rfl
        left
        rw [if_neg (Bool.eq_false_iff.mp hd)]
        exact List.mem_map.mpr ⟨q, hq, by simp⟩
      | succ n =>
        right
        rw [show k + (n + 1) = k + 1 + n from by omega]
        exact (innerLeafLocs_mem fs b π (k + 1) _).mpr ⟨n, g, q, hg, hd, hq, rfl⟩

theorem innerNodeLocs_mem (fs : SFields) (b : Nat) (π : List Nat) (k : Nat) (x : LSLocation) :
    x ∈ innerNodeLocs b π k fs ↔
      ∃ i f q, fs.get? i = some f ∧ decompLeaf f = false ∧ q ∈ nodePathsOf f ∧
        x = LSLocation.mk b (π ++ ((k + i) :: q)) := by
  cases fs with
  | nil =>
    simp only [innerNodeLocs]
    constructor
    · intro h; cases h
    · rintro ⟨i, f, q, h, _, _, _⟩; cases h
  | cons f fs =>
    rw [innerNodeLocs, List.mem_append]
    constructor
    · rintro (hx | hx)
      · by_cases hd : decompLeaf f = true
        · rw [if_pos hd] at hx; cases hx
        · rw [if_neg hd] at hx
          rcases List.mem_map.mp hx with ⟨q, hq, rfl⟩
          exact ⟨0, f, q, rfl, Bool.eq_false_iff.mpr hd, hq, by simp⟩
      · rcases (innerNodeLocs_mem fs b π (k + 1) x).mp hx with ⟨i, g, q, hg, hd, hq, rfl⟩
        exact ⟨i + 1, g, q, hg, hd, hq, by rw [show k + (i + 1) = k + 1 + i from by omega]⟩
    · rintro ⟨i, g, q, hg, hd, hq, rfl⟩
      cases i with
      | zero =>
        have hfg : f = g := by simpa [SFields.get?] using hg
        rcases hfg with rfl
        left
        rw [if_neg (Bool.eq_false_iff.mp hd)]
        exact List.mem_map.mpr ⟨q, hq, by simp⟩
      | succ n =>
        right
        rw [show k + (n + 1) = k + 1 + n from by omega]
        exact (innerNodeLocs_mem fs b π (k + 1) _).mpr ⟨n, g, q, hg, hd, hq, rfl⟩

theorem loc_eq_iff (b : Nat) (p q : List Nat) :
    LSLocation.mk b p = LSLocation.mk b q ↔ p = q := by
  constructor
  · intro h; injection h
  · intro h; rw [h]

theorem loc_append_eq_iff (b : Nat) (π p q : List Nat) :
    LSLocation.mk b (π ++ p) = LSLocation.mk b (π ++ q) ↔ p = q := by
  rw [loc_eq_iff]
  exact ⟨fun h => List.append_cancel_left h, fun h => by rw [h]⟩

/-- Splitting the leaf locations of a struct's fields: each is either a
leaf strictly inside a non-leaf field, or a decomposition-leaf field
itself. -/
theorem leafLocs_split (fs : SFields) (b : Nat) (π : List Nat) (k : Nat) (x : LSLocation) :
    x ∈ (leafPathsFields k fs).map (fun p => LSLocation.mk b (π ++ p)) ↔
      (x ∈ innerLeafLocs b π k fs ∨
       ∃ i f, fs.get? i = some f ∧ decompLeaf f = true ∧
         x = LSLocation.mk b (π ++ [k + i])) := by
  constructor
  · intro hx
    rcases List.mem_map.mp hx with ⟨p, hp, rfl⟩
    rcases (mem_leafPathsFields fs k p).mp hp with ⟨i, f, q, hg, rfl, hq⟩
    by_cases hd : decompLeaf f = true
    · right
      rw [decompLeaf_leafPaths f hd] at hq
      rcases List.mem_singleton.mp hq with rfl
      exact ⟨i, f, hg, hd, rfl⟩
    · left
      exact (innerLeafLocs_mem fs b π k _).mpr
        ⟨i, f, q, hg, Bool.eq_false_iff.mpr hd, hq, rfl⟩
  · rintro (hx | ⟨i, f, hg, hd, rfl⟩)
    · rcases (innerLeafLocs_mem fs b π k x).mp hx with ⟨i, f, q, hg, hd, hq, rfl⟩
      exact List.mem_map.mpr ⟨(k + i) :: q, (mem_leafPathsFields fs k _).mpr
        ⟨i, f, q, hg, rfl, hq⟩, rfl⟩
    · refine List.mem_map.mpr ⟨[k + i], (mem_leafPathsFields fs k _).mpr
        ⟨i, f, [], hg, rfl, ?_⟩, rfl⟩
      rw [decompLeaf_leafPaths f hd]
      exact List.mem_singleton.mpr rfl


/-! The bottom-up collapse of a fully-covered subtree, location-set
version: folding the compaction step over the reversed node expansion of
a subtree whose leaves are all alive (and whose strict inner nodes are
not) erases the subtree's leaves and promotes its root. -/

theorem compactNode_skip (E : TyEnv) (s : List LSLocation) (t : SType) (b : Nat)
    (π : List Nat) (hT : subType (E b) π = some t) (hd : decompLeaf t = true) :
    compactNode E s (LSLocation.mk b π) = s := by
  have hcnt := locFirstLevel_of_type E b π t hT
  cases t with
  | scalar c =>
    apply compactNode_eq_nil
    rw [hcnt]
    rfl
  | strct fs =>
    apply compactNode_eq_nil
    rw [hcnt]
    cases fs with
    | nil => rfl
    | cons f fs =>
      simp [decompLeaf, SType.isClass, SType.firstLevelCount, SFields.length] at hd
  | cls c fs =>
    rcases hFL : locFirstLevel E (LSLocation.mk b π) with _ | ⟨f0, rest⟩
    · exact compactNode_eq_nil _ _ _ hFL
    · rw [compactNode_eq_cons _ _ _ _ _ hFL, if_pos]
      rw [locIsClass_of_type E b π _ hT]
      rfl

theorem compactNode_eq_alive (E : TyEnv) (s : List LSLocation) (I : LSLocation)
    (hne : locFirstLevel E I ≠ []) (hcls : locIsClass E I = false)
    (hall : ∀ c ∈ locFirstLevel E I, c ∈ s) :
    compactNode E s I = sInsert ((locFirstLevel E I).foldl sErase s) I := by
  rcases hFL : locFirstLevel E I with _ | ⟨f0, rest⟩
  · exact absurd hFL hne
  · rw [compactNode_eq_cons E s I f0 rest hFL,
      if_neg (by rw [hcls]; exact Bool.false_ne_true), if_pos]
    apply List.all_eq_true.mpr
    intro c hc
    exact decide_eq_true (hall c (by rw [hFL]; exact hc))

theorem decide_and_eq (p q : Prop) [Decidable p] [Decidable q] :
    (decide p && decide q) = decide (p ∧ q) := by
  by_cases hp : p <;> by_cases hq : q <;> simp [hp, hq]

mutual
theorem collapseSet (t : SType) (b : Nat) (π : List Nat) (E : TyEnv) (s : List LSLocation)
    (hT : subType (E b) π = some t)
    (H1 : ∀ p ∈ leafPathsOf t, LSLocation.mk b (π ++ p) ∈ s)
    (H2 : ∀ p ∈ nodePathsOf t, LSLocation.mk b (π ++ p) ∈ s → p ∈ leafPathsOf t) :
    (nodeLocsAt b π t).reverse.foldl (compactNode E) s =
      if decompLeaf t = true then s
      else eraseSet s (leafLocsAt b π t) ++ [LSLocation.mk b π] := by
  by_cases hd : decompLeaf t = true
  · rw [if_pos hd]
    unfold nodeLocsAt
    rw [decompLeaf_nodePaths t hd, List.map_cons, List.map_nil, List.reverse_singleton,
      List.foldl_cons, List.foldl_nil, List.append_nil]
    exact compactNode_skip E s t b π hT hd
  · rw [if_neg hd]
    cases t with
    | scalar c => exact absurd rfl hd
    | cls c fs => exact absurd rfl hd
    | strct fs =>
      cases fs with
      | nil => exact absurd rfl hd
      | cons f₀ fs₀ =>
        set fsAll := SFields.cons f₀ fs₀ with hfs
        have hsplitlist : (nodeLocsAt b π (SType.strct fsAll)).reverse =
            (fieldBlockLocs b π 0 fsAll).reverse ++ [LSLocation.mk b π] := by
          unfold nodeLocsAt fieldBlockLocs
          rw [nodePathsOf, List.map_cons, List.reverse_cons, List.append_nil]
        rw [hsplitlist, List.foldl_append]
        have hT' : ∀ i f, fsAll.get? i = some f →
            subType (E b) (π ++ [0 + i]) = some f := by
          intro i f hi
          rw [Nat.zero_add, subType_append π [i] (E b), hT]
          rw [Option.some_bind, subType_strct_single]
          exact hi
        have H1f : ∀ p ∈ leafPathsFields 0 fsAll, LSLocation.mk b (π ++ p) ∈ s := H1
        have H2f : ∀ p ∈ nodePathsFields 0 fsAll, LSLocation.mk b (π ++ p) ∈ s →
            p ∈ leafPathsFields 0 fsAll :=
          fun p hp hs' => H2 p (List.mem_cons_of_mem _ hp) hs'
        rw [collapseSetFields fsAll 0 b π E s hT' H1f H2f]
        simp only [List.foldl_cons, List.foldl_nil]
        set s₁ := eraseSet s (innerLeafLocs b π 0 fsAll) ++ (promotedLocs b π 0 fsAll).reverse
          with hs₁
        have hFLr : locFirstLevel E (LSLocation.mk b π) =
            (List.range (fsAll.length)).map (fun i => LSLocation.mk b (π ++ [i])) :=
          locFirstLevel_of_type E b π _ hT
        have hchild_mem : ∀ c ∈ locFirstLevel E (LSLocation.mk b π), c ∈ s₁ := by
          intro c hc
          rw [hFLr] at hc
          rcases List.mem_map.mp hc with ⟨i, hi, rfl⟩
          have hilt : i < fsAll.length := List.mem_range.mp hi
          rcases SFields.lt_get? fsAll i hilt with ⟨fi, hfi⟩
          by_cases hdi : decompLeaf fi = true
          · -- a decomposition-leaf field: it is one of the original leaves
            have hleafmem : [i] ∈ leafPathsOf (SType.strct fsAll) := by
              apply (mem_leafPathsFields fsAll 0 [i]).mpr
              refine ⟨i, fi, [], hfi, by simp, ?_⟩
              rw [decompLeaf_leafPaths fi hdi]
              exact List.mem_singleton.mpr rfl
            have hins := H1 [i] hleafmem
            apply List.mem_append.mpr
            left
            apply List.mem_filter.mpr
            refine ⟨hins, decide_eq_true ?_⟩
            intro hinner
            rcases (innerLeafLocs_mem fsAll b π 0 _).mp hinner with
              ⟨i', f', q, hg', hd', hq, heq⟩
            rw [loc_append_eq_iff] at heq
            rw [Nat.zero_add] at heq
            injection heq with h1 h2
            rcases h1 with rfl
            rw [hfi] at hg'
            rcases Option.some.inj hg' with rfl
            rw [hdi] at hd'
            cases hd'
          · -- a promoted field root
            apply List.mem_append.mpr
            right
            apply List.mem_reverse.mpr
            apply (promotedLocs_mem fsAll b π 0 _).mpr
            exact ⟨i, fi, hfi, Bool.eq_false_iff.mpr hdi, by simp⟩
        have hne : locFirstLevel E (LSLocation.mk b π) ≠ [] := by
          rw [hFLr, hfs]
          simp [SFields.length]
        have hcls : locIsClass E (LSLocation.mk b π) = false := by
          rw [locIsClass_of_type E b π _ hT]
          rfl
        rw [compactNode_eq_alive E s₁ (LSLocation.mk b π) hne hcls hchild_mem]
        rw [foldl_sErase_eq]
        have hrootnotin : LSLocation.mk b π ∉ s₁ := by
          intro hmem
          rcases List.mem_append.mp hmem with hmem | hmem
          · have hins := (List.mem_filter.mp hmem).1
            have := H2 [] (nil_mem_nodePathsOf _) (by simpa using hins)
            rcases leafPathsFields_head fsAll 0 [] this with ⟨i, p, hip, _⟩
            cases hip
          · rcases (promotedLocs_mem fsAll b π 0 _).mp (List.mem_reverse.mp hmem) with
              ⟨i, f', _, _, heq⟩
            rw [loc_eq_iff] at heq
            have := congrArg List.length heq
            simp at this
        have hrootnotin2 : LSLocation.mk b π ∉
            s₁.filter (fun y => decide (y ∉ locFirstLevel E (LSLocation.mk b π))) := by
          intro hmem
          exact hrootnotin (List.mem_filter.mp hmem).1
        rw [sInsert, if_neg hrootnotin2]
        -- now compute the filtered set
        rw [hs₁, eraseSet, List.filter_append, List.filter_filter]
        have hpromgone : ((promotedLocs b π 0 fsAll).reverse).filter
            (fun y => decide (y ∉ locFirstLevel E (LSLocation.mk b π))) = [] := by
          apply List.filter_eq_nil_iff.mpr
          intro x hx
          rcases (promotedLocs_mem fsAll b π 0 _).mp (List.mem_reverse.mp hx) with
            ⟨i, f', hg', _, rfl⟩
          simp only [decide_eq_true_eq, not_not]
          rw [hFLr]
          refine List.mem_map.mpr ⟨0 + i, List.mem_range.mpr ?_, rfl⟩
          have := SFields.get?_lt fsAll i f' hg'
          omega
        rw [hpromgone, List.append_nil]
        have hfiltcongr : s.filter (fun a =>
            decide (a ∉ locFirstLevel E (LSLocation.mk b π)) &&
            decide (a ∉ innerLeafLocs b π 0 fsAll)) =
            s.filter (fun x => decide (x ∉ leafLocsAt b π (SType.strct fsAll))) := by
          apply List.filter_congr
          intro x hxs
          have hiff : ((x ∉ locFirstLevel E (LSLocation.mk b π)) ∧
              (x ∉ innerLeafLocs b π 0 fsAll)) ↔
              (x ∉ leafLocsAt b π (SType.strct fsAll)) := by
            constructor
            · rintro ⟨h2, h1⟩ hleaf
              rcases (leafLocs_split fsAll b π 0 x).mp hleaf with hin | ⟨i, f', hg', hd', rfl⟩
              · exact h1 hin
              · apply h2
                rw [hFLr]
                refine List.mem_map.mpr ⟨0 + i, List.mem_range.mpr ?_, rfl⟩
                have := SFields.get?_lt fsAll i f' hg'
                omega
            · intro hnl
              refine ⟨?_, ?_⟩
              swap
              · intro hin
                exact hnl ((leafLocs_split fsAll b π 0 x).mpr (Or.inl hin))
              · intro hFL
                rw [hFLr] at hFL
                rcases List.mem_map.mp hFL with ⟨i, hi, rfl⟩
                rcases SFields.lt_get? fsAll i (List.mem_range.mp hi) with ⟨fi, hfi⟩
                by_cases hdi : decompLeaf fi = true
                · exact hnl ((leafLocs_split fsAll b π 0 _).mpr
                    (Or.inr ⟨i, fi, hfi, hdi, by simp⟩))
                · have hnode : [i] ∈ nodePathsOf (SType.strct fsAll) :=
                    List.mem_cons_of_mem _ ((mem_nodePathsFields fsAll 0 [i]).mpr
                      ⟨i, fi, [], hfi, by simp, nil_mem_nodePathsOf fi⟩)
                  have hlf := H2 [i] hnode hxs
                  rcases (mem_leafPathsFields fsAll 0 [i]).mp hlf with
                    ⟨i', f', q', hg', heq, hq'⟩
                  rw [Nat.zero_add] at heq
                  injection heq with h1 h2
                  rcases h1 with rfl
                  rcases h2.symm with rfl
                  rw [hfi] at hg'
                  rcases Option.some.inj hg' with rfl
                  exact hdi ((nil_mem_leafPathsOf_iff fi).mp hq')
          rw [decide_and_eq]
          exact decide_eq_decide.mpr hiff
        rw [hfiltcongr]
        rfl

theorem collapseSetFields (fs : SFields) (k : Nat) (b : Nat) (π : List Nat) (E : TyEnv)
    (s : List LSLocation)
    (hT : ∀ i f, fs.get? i = some f → subType (E b) (π ++ [k + i]) = some f)
    (H1 : ∀ p ∈ leafPathsFields k fs, LSLocation.mk b (π ++ p) ∈ s)
    (H2 : ∀ p ∈ nodePathsFields k fs, LSLocation.mk b (π ++ p) ∈ s → p ∈ leafPathsFields k fs) :
    (fieldBlockLocs b π k fs).reverse.foldl (compactNode E) s =
      eraseSet s (innerLeafLocs b π k fs) ++ (promotedLocs b π k fs).reverse := by
  cases fs with
  | nil =>
    unfold fieldBlockLocs innerLeafLocs promotedLocs eraseSet
    simp [nodePathsFields]
  | cons f fs =>
    have hblock : fieldBlockLocs b π k (.cons f fs) =
        nodeLocsAt b (π ++ [k]) f ++ fieldBlockLocs b π (k + 1) fs := by
      unfold fieldBlockLocs nodeLocsAt
      rw [nodePathsFields, List.map_append, List.map_map]
      congr 1
      apply List.map_congr_left
      intro p _
      simp only [Function.comp]
      rw [List.append_cons]
    rw [hblock, List.reverse_append, List.foldl_append]
    -- first the later fields collapse
    have hT₁ : ∀ i f', fs.get? i = some f' → subType (E b) (π ++ [k + 1 + i]) = some f' := by
      intro i f' hi
      rw [show k + 1 + i = k + (i + 1) from by omega]
      exact hT (i + 1) f' hi
    have H1₁ : ∀ p ∈ leafPathsFields (k + 1) fs, LSLocation.mk b (π ++ p) ∈ s := by
      intro p hp
      exact H1 p (List.mem_append.mpr (Or.inr hp))
    have H2₁ : ∀ p ∈ nodePathsFields (k + 1) fs, LSLocation.mk b (π ++ p) ∈ s →
        p ∈ leafPathsFields (k + 1) fs := by
      intro p hp hs'
      have hlf := H2 p (List.mem_append.mpr (Or.inr hp)) hs'
      rcases List.mem_append.mp hlf with hlf | hlf
      · rcases List.mem_map.mp hlf with ⟨q, _, hpq⟩
        rcases nodePathsFields_head fs (k + 1) p hp with ⟨i, p', hip, hk⟩
        rw [← hpq] at hip
        injection hip with h1 h2
        omega
      · exact hlf
    rw [collapseSetFields fs (k + 1) b π E s hT₁ H1₁ H2₁]
    -- then the head field's own subtree
    by_cases hdf : decompLeaf f = true
    · -- a decomposition-leaf field contributes a single skipped node
      rw [show (nodeLocsAt b (π ++ [k]) f).reverse = [LSLocation.mk b (π ++ [k])] from by
        unfold nodeLocsAt
        rw [decompLeaf_nodePaths f hdf, List.map_cons, List.map_nil,
          List.reverse_singleton, List.append_nil]]
      simp only [List.foldl_cons, List.foldl_nil]
      rw [compactNode_skip E _ f b (π ++ [k]) (by simpa using hT 0 f rfl) hdf]
      rw [show innerLeafLocs b π k (.cons f fs) = innerLeafLocs b π (k + 1) fs from by
        rw [innerLeafLocs, if_pos hdf, List.nil_append]]
      rw [show promotedLocs b π k (.cons f fs) = promotedLocs b π (k + 1) fs from by
        rw [promotedLocs, if_pos hdf, List.nil_append]]
    · -- an internal field: its subtree collapses to its root
      set s₁ := eraseSet s (innerLeafLocs b π (k + 1) fs) ++
        (promotedLocs b π (k + 1) fs).reverse with hs₁
      have hT' : subType (E b) ((π ++ [k])) = some f := by simpa using hT 0 f rfl
      have H1' : ∀ p ∈ leafPathsOf f, LSLocation.mk b ((π ++ [k]) ++ p) ∈ s₁ := by
        intro q hq
        have hx : LSLocation.mk b (π ++ (k :: q)) ∈ s := by
          apply H1
          apply List.mem_append.mpr
          exact Or.inl (List.mem_map.mpr ⟨q, hq, rfl⟩)
        rw [← List.append_cons]
        apply List.mem_append.mpr
        left
        apply List.mem_filter.mpr
        refine ⟨hx, decide_eq_true ?_⟩
        intro hin
        rcases (innerLeafLocs_mem fs b π (k + 1) _).mp hin with ⟨i, f', q', _, _, _, heq⟩
        rw [loc_append_eq_iff] at heq
        injection heq with h1 h2
        omega
      have H2' : ∀ p ∈ nodePathsOf f, LSLocation.mk b ((π ++ [k]) ++ p) ∈ s₁ →
          p ∈ leafPathsOf f := by
        intro q hq hmem
        rw [← List.append_cons] at hmem
        rcases List.mem_append.mp hmem with hmem | hmem
        · have hxs := (List.mem_filter.mp hmem).1
          have hlf := H2 (k :: q) (List.mem_append.mpr
            (Or.inl (List.mem_map.mpr ⟨q, hq, rfl⟩))) hxs
          rcases List.mem_append.mp hlf with hlf | hlf
          · rcases List.mem_map.mp hlf with ⟨q', hq', heq⟩
            injection heq with h1 h2
            rcases h2 with rfl
            exact hq'
          · rcases leafPathsFields_head fs (k + 1) _ hlf with ⟨i, p', hip, hk⟩
            injection hip with h1 h2
            omega
        · rcases (promotedLocs_mem fs b π (k + 1) _).mp (List.mem_reverse.mp hmem) with
            ⟨i, f', _, _, heq⟩
          rw [loc_append_eq_iff] at heq
          injection heq with h1 h2
          omega
      rw [collapseSet f b (π ++ [k]) E s₁ hT' H1' H2', if_neg hdf]
      -- now rearrange the result into the claimed shape
      rw [hs₁, eraseSet, eraseSet, List.filter_append, List.filter_filter]
      have hpromkeep : ((promotedLocs b π (k + 1) fs).reverse).filter
          (fun y => decide (y ∉ leafLocsAt b (π ++ [k]) f)) =
          (promotedLocs b π (k + 1) fs).reverse := by
        apply List.filter_eq_self.mpr
        intro x hx
        rcases (promotedLocs_mem fs b π (k + 1) _).mp (List.mem_reverse.mp hx) with
          ⟨i, f', _, _, rfl⟩
        apply decide_eq_true
        intro hin
        rcases List.mem_map.mp hin with ⟨q, _, heq⟩
        rw [← List.append_cons] at heq
        rw [loc_append_eq_iff] at heq
        injection heq with h1 h2
        omega
      rw [hpromkeep]
      have hfiltcongr : s.filter (fun a =>
          decide (a ∉ leafLocsAt b (π ++ [k]) f) &&
          decide (a ∉ innerLeafLocs b π (k + 1) fs)) =
          s.filter (fun x => decide (x ∉ innerLeafLocs b π k (.cons f fs))) := by
        apply List.filter_congr
        intro x _
        have hLrw : leafLocsAt b (π ++ [k]) f =
            (leafPathsOf f).map (fun q => LSLocation.mk b (π ++ (k :: q))) := by
          unfold leafLocsAt
          apply List.map_congr_left
          intro q _
          simp
        have hiff : ((x ∉ leafLocsAt b (π ++ [k]) f) ∧
            (x ∉ innerLeafLocs b π (k + 1) fs)) ↔
            (x ∉ innerLeafLocs b π k (.cons f fs)) := by
          rw [hLrw, innerLeafLocs, if_neg hdf, List.mem_append]
          tauto
        rw [decide_and_eq]
        exact decide_eq_decide.mpr hiff
      rw [hfiltcongr]
      rw [show promotedLocs b π k (.cons f fs) =
          LSLocation.mk b (π ++ [k]) :: promotedLocs b π (k + 1) fs from by
        rw [promotedLocs, if_neg hdf]
        rfl]
      rw [List.reverse_cons, ← List.append_assoc]
      rfl
end


theorem eq_singleton_of_mem (s : List LSLocation) (a : LSLocation) (ha : a ∈ s)
    (hall : ∀ x ∈ s, x = a) (hnd : s.Nodup) : s = [a] := by
  cases s with
  | nil => cases ha
  | cons x xs =>
    have hx : x = a := hall x (List.mem_cons_self _ _)
    subst hx
    rcases List.nodup_cons.mp hnd with ⟨hxnot, _⟩
    cases xs with
    | nil => rfl
    | cons y ys =>
      have hy : y = x := hall y (by simp)
      subst hy
      exact absurd (List.mem_cons_self y ys) hxnot

/-- Claim C6: on a location set that is exactly the full leaf expansion of
a base location, compaction collapses the set to the single base
location, and leaf-expanding every remaining location reproduces exactly
the original leaf set. -/
theorem claim6 (E : TyEnv) (Base : LSLocation) (t : SType) (s : List LSLocation)
    (hT : locType E Base = some t)
    (h1 : ∀ l ∈ LSLocation.expand E Base, l ∈ s)
    (h2 : ∀ x ∈ s, x ∈ LSLocation.expand E Base)
    (hnd : s.Nodup) :
    LSLocation.reduce E Base s = [Base] ∧
    (∀ x, x ∈ (LSLocation.reduce E Base s).bind (LSLocation.expand E) ↔ x ∈ s) := by
  obtain ⟨b, π⟩ := Base
  have hexp : LSLocation.expand E (LSLocation.mk b π) =
      (leafPathsOf t).map (fun p => LSLocation.mk b (π ++ p)) := by
    unfold LSLocation.expand
    rw [hT]
  have H1 : ∀ p ∈ leafPathsOf t, LSLocation.mk b (π ++ p) ∈ s := by
    intro p hp
    apply h1
    rw [hexp]
    exact List.mem_map.mpr ⟨p, hp, rfl⟩
  have H2 : ∀ p ∈ nodePathsOf t, LSLocation.mk b (π ++ p) ∈ s → p ∈ leafPathsOf t := by
    intro p _ hmem
    have hx := h2 _ hmem
    rw [hexp] at hx
    rcases List.mem_map.mp hx with ⟨q, hq, heq⟩
    rw [loc_append_eq_iff] at heq
    rw [← heq]
    exact hq
  have hred : LSLocation.reduce E (LSLocation.mk b π) s =
      if decompLeaf t = true then s
      else eraseSet s (leafLocsAt b π t) ++ [LSLocation.mk b π] := by
    unfold LSLocation.reduce nodeLocs
    rw [show locType E (LSLocation.mk b π) = some t from hT]
    exact collapseSet t b π E s hT H1 H2
  have hone : LSLocation.reduce E (LSLocation.mk b π) s = [LSLocation.mk b π] := by
    rw [hred]
    by_cases hd : decompLeaf t = true
    · rw [if_pos hd]
      apply eq_singleton_of_mem s (LSLocation.mk b π)
      · have := H1 [] (by rw [decompLeaf_leafPaths t hd]; exact List.mem_singleton.mpr rfl)
        simpa using this
      · intro x hx
        have hx2 := h2 x hx
        rw [hexp, decompLeaf_leafPaths t hd] at hx2
        rcases List.mem_map.mp hx2 with ⟨q, hq, heq⟩
        rcases List.mem_singleton.mp hq with rfl
        rw [← heq]
        simp
      · exact hnd
    · rw [if_neg hd]
      have hnilE : eraseSet s (leafLocsAt b π t) = [] := by
        apply List.filter_eq_nil_iff.mpr
        intro x hx
        simp only [decide_eq_true_eq, not_not]
        have := h2 x hx
        rw [hexp] at this
        exact this
      rw [hnilE, List.nil_append]
  refine ⟨hone, fun x => ?_⟩
  rw [hone]
  constructor
  · intro hx
    rcases List.mem_bind.mp hx with ⟨l, hl, hxl⟩
    rcases List.mem_singleton.mp hl with rfl
    exact h1 x hxl
  · intro hx
    apply List.mem_bind.mpr
    exact ⟨LSLocation.mk b π, List.mem_singleton.mpr rfl, h2 x hx⟩

/-- The struct type of the Point scenarios. -/
def tPoint : SType := SType.strct (.cons (.scalar 0) (.cons (.scalar 1) .nil))

/-- Witness for claim C6: the Point struct's full leaf set collapses to
the whole-struct location and expands back to the original leaf set. -/
theorem claim6_witness :
    LSLocation.reduce envPoint locP (LSLocation.expand envPoint locP) = [locP] ∧
    (∀ x, x ∈ (LSLocation.reduce envPoint locP
        (LSLocation.expand envPoint locP)).bind (LSLocation.expand envPoint) ↔
      x ∈ LSLocation.expand envPoint locP) :=
  claim6 envPoint locP tPoint (LSLocation.expand envPoint locP) rfl
    (fun l hl => hl) (fun x hx => hx) (by decide)


/-! The bottom-up collapse, value-map version: every branch of the
value-reduction step erases the children's entries and installs the
parent's, so folding it over the reversed node expansion leaves a single
entry keyed by the subtree root, whatever the values. -/

/-- Erasing a whole list of keys from the value map. -/
def eraseKeys (m : VMap) (L : List LSLocation) : VMap :=
  m.filter (fun e => decide (e.1 ∉ L))

theorem removeLSLocations_eq (L : List LSLocation) (m : VMap) :
    removeLSLocations m L = eraseKeys m L := by
  unfold removeLSLocations eraseKeys
  induction L generalizing m with
  | nil => simp
  | cons x L ih =>
    rw [List.foldl_cons, ih]
    unfold veraseKey
    rw [List.filter_filter]
    apply List.filter_congr
    intro e _
    by_cases h1 : e.1 = x <;> by_cases h2 : e.1 ∈ L <;> simp [h1, h2]

theorem reduceNode_eq_nil (E : TyEnv) (acc : VMap × EmitState) (I : LSLocation)
    (h : locFirstLevel E I = []) : reduceNode E acc I = acc := by
  unfold reduceNode
  rw [h]

theorem reduceNode_eq_cons (E : TyEnv) (acc : VMap × EmitState) (I f0 : LSLocation)
    (rest : List LSLocation) (h : locFirstLevel E I = f0 :: rest) :
    reduceNode E acc I =
      if locIsClass E I = true then acc
      else
        if rest.isEmpty && !(vfindD acc.1 f0).hasEmptyProjectionPath then
          (removeLSLocations
            (vinsert acc.1 I (vfindD acc.1 f0).stripLastLevelProjection) (f0 :: rest), acc.2)
        else if !rest.isEmpty &&
            rest.all (fun x => (vfindD acc.1 x).base == (vfindD acc.1 f0).base) &&
            !(vfindD acc.1 f0).hasEmptyProjectionPath then
          (removeLSLocations
            (vinsert acc.1 I (vfindD acc.1 f0).stripLastLevelProjection) (f0 :: rest), acc.2)
        else
          let ms := (f0 :: rest).foldl
            (fun (p : List Nat × EmitState) x =>
              let r := (vfindD acc.1 x).materialize p.2
              (p.1 ++ [r.1], r.2)) ([], acc.2)
          let ag := createAgg ms.1 ms.2
          (removeLSLocations (vinsert acc.1 I (LSValue.mk ag.1 [])) (f0 :: rest), ag.2) := by
  unfold reduceNode
  rw [h]

theorem reduceNode_skip (E : TyEnv) (acc : VMap × EmitState) (t : SType) (b : Nat)
    (π : List Nat) (hT : subType (E b) π = some t) (hd : decompLeaf t = true) :
    reduceNode E acc (LSLocation.mk b π) = acc := by
  have hcnt := locFirstLevel_of_type E b π t hT
  cases t with
  | scalar c =>
    apply reduceNode_eq_nil
    rw [hcnt]
    rfl
  | strct fs =>
    apply reduceNode_eq_nil
    rw [hcnt]
    cases fs with
    | nil => rfl
    | cons f fs =>
      simp [decompLeaf, SType.isClass, SType.firstLevelCount, SFields.length] at hd
  | cls c fs =>
    rcases hFL : locFirstLevel E (LSLocation.mk b π) with _ | ⟨f0, rest⟩
    · exact reduceNode_eq_nil _ _ _ hFL
    · rw [reduceNode_eq_cons _ _ _ _ _ hFL, if_pos]
      rw [locIsClass_of_type E b π _ hT]
      rfl

theorem reduceNode_key_filter (E : TyEnv) (acc : VMap × EmitState) (I f0 : LSLocation)
    (rest : List LSLocation) (h : locFirstLevel E I = f0 :: rest)
    (hcls : locIsClass E I = false) (hnotchild : I ∉ f0 :: rest) :
    ∃ v s', reduceNode E acc I =
      (eraseKeys acc.1 (I :: f0 :: rest) ++ [(I, v)], s') := by
  have hform : ∀ (v : LSValue),
      removeLSLocations (vinsert acc.1 I v) (f0 :: rest) =
        eraseKeys acc.1 (I :: f0 :: rest) ++ [(I, v)] := by
    intro v
    rw [removeLSLocations_eq]
    unfold eraseKeys vinsert veraseKey
    rw [List.filter_append, List.filter_filter]
    have hkeep : List.filter (fun e => decide (e.1 ∉ f0 :: rest)) [(I, v)] = [(I, v)] := by
      have h1 : ¬ I = f0 ∧ I ∉ rest := by
        rw [List.mem_cons] at hnotchild
        push_neg at hnotchild
        exact hnotchild
      simp [h1.1, h1.2]
    rw [hkeep]
    congr 1
    apply List.filter_congr
    intro e _
    by_cases h1 : e.1 = I <;> by_cases h2 : e.1 ∈ f0 :: rest <;>
      simp [h1, h2, List.mem_cons]
  rw [reduceNode_eq_cons E acc I f0 rest h,
    if_neg (by rw [hcls]; exact Bool.false_ne_true)]
  by_cases hc1 : (rest.isEmpty && !(vfindD acc.1 f0).hasEmptyProjectionPath) = true
  · rw [if_pos hc1, hform]
    exact ⟨_, _, rfl⟩
  · rw [if_neg hc1]
    by_cases hc2 : (!rest.isEmpty &&
        rest.all (fun x => (vfindD acc.1 x).base == (vfindD acc.1 f0).base) &&
        !(vfindD acc.1 f0).hasEmptyProjectionPath) = true
    · rw [if_pos hc2, hform]
      exact ⟨_, _, rfl⟩
    · rw [if_neg hc2]
      simp only []
      rw [hform]
      exact ⟨_, _, rfl⟩


mutual
theorem collapseMap (t : SType) (b : Nat) (π : List Nat) (E : TyEnv) (m : VMap)
    (st : EmitState) (hT : subType (E b) π = some t) :
    (decompLeaf t = true ∧
      (nodeLocsAt b π t).reverse.foldl (reduceNode E) (m, st) = (m, st)) ∨
    (decompLeaf t = false ∧ ∃ v st',
      (nodeLocsAt b π t).reverse.foldl (reduceNode E) (m, st) =
        (eraseKeys m (nodeLocsAt b π t) ++ [(LSLocation.mk b π, v)], st')) := by
  by_cases hd : decompLeaf t = true
  · left
    refine ⟨hd, ?_⟩
    unfold nodeLocsAt
    rw [decompLeaf_nodePaths t hd, List.map_cons, List.map_nil, List.reverse_singleton,
      List.foldl_cons, List.foldl_nil, List.append_nil]
    exact reduceNode_skip E (m, st) t b π hT hd
  · right
    refine ⟨Bool.eq_false_iff.mpr hd, ?_⟩
    cases t with
    | scalar c => exact absurd rfl hd
    | cls c fs => exact absurd rfl hd
    | strct fs =>
      cases fs with
      | nil => exact absurd rfl hd
      | cons f₀ fs₀ =>
        set fsAll := SFields.cons f₀ fs₀ with hfs
        have hsplitlist : (nodeLocsAt b π (SType.strct fsAll)).reverse =
            (fieldBlockLocs b π 0 fsAll).reverse ++ [LSLocation.mk b π] := by
          unfold nodeLocsAt fieldBlockLocs
          rw [nodePathsOf, List.map_cons, List.reverse_cons, List.append_nil]
        rw [hsplitlist, List.foldl_append]
        have hT' : ∀ i f, fsAll.get? i = some f →
            subType (E b) (π ++ [0 + i]) = some f := by
          intro i f hi
          rw [Nat.zero_add, subType_append π [i] (E b), hT]
          rw [Option.some_bind, subType_strct_single]
          exact hi
        rcases collapseMapFields fsAll 0 b π E m st hT' with ⟨ps, st₁, hfields, hpsfst⟩
        rw [hfields]
        simp only [List.foldl_cons, List.foldl_nil]
        have hFLr : locFirstLevel E (LSLocation.mk b π) =
            (List.range (fsAll.length)).map (fun i => LSLocation.mk b (π ++ [i])) :=
          locFirstLevel_of_type E b π _ hT
        rcases hFL : locFirstLevel E (LSLocation.mk b π) with _ | ⟨f0, rest⟩
        · rw [hFL] at hFLr
          rw [hfs] at hFLr
          simp [SFields.length, List.range_succ] at hFLr
        · have hlist : f0 :: rest =
              (List.range (fsAll.length)).map (fun i => LSLocation.mk b (π ++ [i])) := by
            rw [← hFL, hFLr]
          have hcls : locIsClass E (LSLocation.mk b π) = false := by
            rw [locIsClass_of_type E b π _ hT]
            rfl
          have hnotchild : LSLocation.mk b π ∉ f0 :: rest := by
            rw [hlist]
            intro hmem
            rcases List.mem_map.mp hmem with ⟨i, _, heq⟩
            rw [loc_eq_iff] at heq
            have := congrArg List.length heq
            simp at this
          rcases reduceNode_key_filter E (eraseKeys m (innerNodeLocs b π 0 fsAll) ++ ps, st₁)
            (LSLocation.mk b π) f0 rest hFL hcls hnotchild with ⟨v, st₂, hstep⟩
          rw [hstep]
          refine ⟨v, st₂, ?_⟩
          congr 1
          simp only []
          unfold eraseKeys
          rw [List.filter_append]
          have hpsgone : ps.filter
              (fun e => decide (e.1 ∉ LSLocation.mk b π :: f0 :: rest)) = [] := by
            apply List.filter_eq_nil_iff.mpr
            intro e he
            simp only [decide_eq_true_eq, not_not]
            apply List.mem_cons_of_mem
            have hkey : e.1 ∈ ps.map Prod.fst := List.mem_map_of_mem Prod.fst he
            rw [hpsfst] at hkey
            rcases (promotedLocs_mem fsAll b π 0 _).mp (List.mem_reverse.mp hkey) with
              ⟨i, f', hg', _, heq⟩
            rw [hlist]
            refine List.mem_map.mpr ⟨0 + i, List.mem_range.mpr ?_, heq.symm⟩
            have := SFields.get?_lt fsAll i f' hg'
            omega
          rw [hpsgone, List.append_nil, List.filter_filter]
          congr 1
          apply List.filter_congr
          intro e _
          have hiff : ((e.1 ∉ LSLocation.mk b π :: f0 :: rest) ∧
              (e.1 ∉ innerNodeLocs b π 0 fsAll)) ↔
              (e.1 ∉ nodeLocsAt b π (SType.strct fsAll)) := by
            constructor
            · rintro ⟨h1, h2⟩ hnode
              rcases List.mem_map.mp hnode with ⟨p, hp, heqp⟩
              rcases List.mem_cons.mp hp with rfl | hp
              · apply h1
                rw [← heqp]
                simp
              · rcases (mem_nodePathsFields fsAll 0 p).mp hp with ⟨i, fi, q, hfi, rfl, hq⟩
                by_cases hdi : decompLeaf fi = true
                · rw [decompLeaf_nodePaths fi hdi] at hq
                  rcases List.mem_singleton.mp hq with rfl
                  apply h1
                  apply List.mem_cons_of_mem
                  rw [hlist]
                  refine List.mem_map.mpr ⟨0 + i, List.mem_range.mpr ?_, heqp⟩
                  have := SFields.get?_lt fsAll i fi hfi
                  omega
                · apply h2
                  apply (innerNodeLocs_mem fsAll b π 0 _).mpr
                  exact ⟨i, fi, q, hfi, Bool.eq_false_iff.mpr hdi, hq, heqp.symm⟩
            · intro hnn
              constructor
              · intro hmem
                apply hnn
                rcases List.mem_cons.mp hmem with heq | hmem
                · refine List.mem_map.mpr ⟨[], List.mem_cons_self _ _, ?_⟩
                  rw [heq]
                  simp
                · rw [hlist] at hmem
                  rcases List.mem_map.mp hmem with ⟨i, hi, heqi⟩
                  rcases SFields.lt_get? fsAll i (List.mem_range.mp hi) with ⟨fi, hfi⟩
                  refine List.mem_map.mpr ⟨[i], List.mem_cons_of_mem _
                    ((mem_nodePathsFields fsAll 0 [i]).mpr
                      ⟨i, fi, [], hfi, by simp, nil_mem_nodePathsOf fi⟩), heqi⟩
              · intro hmem
                apply hnn
                rcases (innerNodeLocs_mem fsAll b π 0 _).mp hmem with
                  ⟨i, fi, q, hfi, _, hq, heq2⟩
                exact List.mem_map.mpr ⟨(0 + i) :: q, List.mem_cons_of_mem _
                  ((mem_nodePathsFields fsAll 0 _).mpr ⟨i, fi, q, hfi, rfl, hq⟩), heq2.symm⟩
          rw [decide_and_eq]
          exact decide_eq_decide.mpr hiff

theorem collapseMapFields (fs : SFields) (k : Nat) (b : Nat) (π : List Nat) (E : TyEnv)
    (m : VMap) (st : EmitState)
    (hT : ∀ i f, fs.get? i = some f → subType (E b) (π ++ [k + i]) = some f) :
    ∃ ps st',
      (fieldBlockLocs b π k fs).reverse.foldl (reduceNode E) (m, st) =
        (eraseKeys m (innerNodeLocs b π k fs) ++ ps, st') ∧
      ps.map Prod.fst = (promotedLocs b π k fs).reverse := by
  cases fs with
  | nil =>
    refine ⟨[], st, ?_, rfl⟩
    unfold fieldBlockLocs innerNodeLocs eraseKeys
    simp [nodePathsFields]
  | cons f fs =>
    have hblock : fieldBlockLocs b π k (.cons f fs) =
        nodeLocsAt b (π ++ [k]) f ++ fieldBlockLocs b π (k + 1) fs := by
      unfold fieldBlockLocs nodeLocsAt
      rw [nodePathsFields, List.map_append, List.map_map]
      congr 1
      apply List.map_congr_left
      intro p _
      simp only [Function.comp]
      rw [List.append_cons]
    rw [hblock, List.reverse_append, List.foldl_append]
    have hT₁ : ∀ i f', fs.get? i = some f' → subType (E b) (π ++ [k + 1 + i]) = some f' := by
      intro i f' hi
      rw [show k + 1 + i = k + (i + 1) from by omega]
      exact hT (i + 1) f' hi
    rcases collapseMapFields fs (k + 1) b π E m st hT₁ with ⟨ps₁, st₁, hrest, hps₁⟩
    rw [hrest]
    have hT0 : subType (E b) (π ++ [k]) = some f := by simpa using hT 0 f rfl
    by_cases hdf : decompLeaf f = true
    · -- a decomposition-leaf field contributes a single skipped node
      rw [show (nodeLocsAt b (π ++ [k]) f).reverse = [LSLocation.mk b (π ++ [k])] from by
        unfold nodeLocsAt
        rw [decompLeaf_nodePaths f hdf, List.map_cons, List.map_nil,
          List.reverse_singleton, List.append_nil]]
      simp only [List.foldl_cons, List.foldl_nil]
      rw [reduceNode_skip E _ f b (π ++ [k]) hT0 hdf]
      refine ⟨ps₁, st₁, ?_, ?_⟩
      · rw [show innerNodeLocs b π k (.cons f fs) = innerNodeLocs b π (k + 1) fs from by
          rw [innerNodeLocs, if_pos hdf, List.nil_append]]
      · rw [hps₁]
        rw [show promotedLocs b π k (.cons f fs) = promotedLocs b π (k + 1) fs from by
          rw [promotedLocs, if_pos hdf, List.nil_append]]
    · -- an internal field: its subtree collapses to its root entry
      rcases collapseMap f b (π ++ [k]) E
        (eraseKeys m (innerNodeLocs b π (k + 1) fs) ++ ps₁) st₁ hT0 with hres | hres
      · exact absurd hres.1 hdf
      · rcases hres.2 with ⟨v, st₂, hfold⟩
        rw [hfold]
        refine ⟨ps₁ ++ [(LSLocation.mk b (π ++ [k]), v)], st₂, ?_, ?_⟩
        · unfold eraseKeys
          rw [List.filter_append]
          have hps₁keep : ps₁.filter
              (fun e => decide (e.1 ∉ nodeLocsAt b (π ++ [k]) f)) = ps₁ := by
            apply List.filter_eq_self.mpr
            intro e he
            apply decide_eq_true
            intro hin
            have hkey : e.1 ∈ ps₁.map Prod.fst := List.mem_map_of_mem Prod.fst he
            rw [hps₁] at hkey
            rcases (promotedLocs_mem fs b π (k + 1) _).mp (List.mem_reverse.mp hkey) with
              ⟨i, f', _, _, hkeq⟩
            rcases List.mem_map.mp hin with ⟨q, _, heq⟩
            rw [← heq] at hkeq
            rw [← List.append_cons] at hkeq
            rw [loc_append_eq_iff] at hkeq
            injection hkeq with h1 h2
            omega
          rw [hps₁keep, List.filter_filter, ← List.append_assoc]
          congr 3
          apply List.filter_congr
          intro e _
          have hLrw : nodeLocsAt b (π ++ [k]) f =
              (nodePathsOf f).map (fun q => LSLocation.mk b (π ++ (k :: q))) := by
            unfold nodeLocsAt
            apply List.map_congr_left
            intro q _
            simp
          have hiff : ((e.1 ∉ nodeLocsAt b (π ++ [k]) f) ∧
              (e.1 ∉ innerNodeLocs b π (k + 1) fs)) ↔
              (e.1 ∉ innerNodeLocs b π k (.cons f fs)) := by
            rw [hLrw, innerNodeLocs, if_neg hdf, List.mem_append]
            tauto
          rw [decide_and_eq]
          exact decide_eq_decide.mpr hiff
        · rw [List.map_append, hps₁]
          rw [show promotedLocs b π k (.cons f fs) =
              LSLocation.mk b (π ++ [k]) :: promotedLocs b π (k + 1) fs from by
            rw [promotedLocs, if_neg hdf]
            rfl]
          rw [List.reverse_cons]
          rfl
end


theorem vfind_isSome_mem (m : VMap) (k : LSLocation) (h : (vfind m k).isSome = true) :
    ∃ v, (k, v) ∈ m := by
  induction m with
  | nil => simp [vfind] at h
  | cons e es ih =>
    unfold vfind at h
    by_cases he : e.1 = k
    · obtain ⟨k', v'⟩ := e
      rcases he with rfl
      exact ⟨v', List.mem_cons_self _ _⟩
    · rw [if_neg he] at h
      rcases ih h with ⟨v, hv⟩
      exact ⟨v, List.mem_cons_of_mem _ hv⟩

theorem vmap_singleton (m : VMap) (a : LSLocation) (hne : (vfind m a).isSome = true)
    (hall : ∀ e ∈ m, e.1 = a) (hnd : (m.map Prod.fst).Nodup) : ∃ v, m = [(a, v)] := by
  cases m with
  | nil => simp [vfind] at hne
  | cons e es =>
    obtain ⟨k, v⟩ := e
    have hk : k = a := hall (k, v) (List.mem_cons_self _ _)
    subst hk
    refine ⟨v, ?_⟩
    cases es with
    | nil => rfl
    | cons e2 es2 =>
      have h2 : e2.1 = k := hall e2 (by simp)
      rw [List.map_cons, List.map_cons] at hnd
      rcases List.nodup_cons.mp hnd with ⟨hknot, _⟩
      exact absurd (by rw [← h2]; exact List.mem_cons_self _ _) hknot

/-- Claim C3: when the value map is populated exactly at the leaf
locations of the base's expansion (each leaf has an entry, every entry's
key is a leaf, keys are distinct), value-reduction succeeds and, after
visiting every node, exactly one entry remains in the map, keyed by the
base location itself; the source's assertion (the `none` arm of the
embedding, modelling a fatal abort) is not reached. -/
theorem claim3 (E : TyEnv) (Base : LSLocation) (t : SType) (m : VMap) (st : EmitState)
    (hT : locType E Base = some t)
    (hsub : ∀ e ∈ m, e.1 ∈ LSLocation.expand E Base)
    (hmem : ∀ l ∈ LSLocation.expand E Base, (vfind m l).isSome = true)
    (hnd : (m.map Prod.fst).Nodup) :
    ∃ r v st', LSValue.reduce E Base m st = some (r, [(Base, v)], st') := by
  obtain ⟨b, π⟩ := Base
  have hexp : LSLocation.expand E (LSLocation.mk b π) =
      (leafPathsOf t).map (fun p => LSLocation.mk b (π ++ p)) := by
    unfold LSLocation.expand
    rw [hT]
  have hnl : nodeLocs E (LSLocation.mk b π) = nodeLocsAt b π t := by
    unfold nodeLocs nodeLocsAt
    rw [hT]
  rcases collapseMap t b π E m st hT with ⟨hd, hfold⟩ | ⟨hd, v, st₂, hfold⟩
  · -- the base itself is a decomposition leaf: the map is already the
    -- single entry keyed by the base
    have hroot : (vfind m (LSLocation.mk b π)).isSome = true := by
      apply hmem
      rw [hexp, decompLeaf_leafPaths t hd]
      exact List.mem_map.mpr ⟨[], List.mem_singleton.mpr rfl, by simp⟩
    have hallk : ∀ e ∈ m, e.1 = LSLocation.mk b π := by
      intro e he
      have hx := hsub e he
      rw [hexp, decompLeaf_leafPaths t hd] at hx
      rcases List.mem_map.mp hx with ⟨q, hq, heq⟩
      rcases List.mem_singleton.mp hq with rfl
      rw [← heq]
      simp
    rcases vmap_singleton m (LSLocation.mk b π) hroot hallk hnd with ⟨v, rfl⟩
    have hfold2 : (nodeLocs E (LSLocation.mk b π)).reverse.foldl (reduceNode E)
        ([(LSLocation.mk b π, v)], st) = ([(LSLocation.mk b π, v)], st) := by
      rw [hnl]
      exact hfold
    refine ⟨(v.materialize st).1, v, (v.materialize st).2, ?_⟩
    unfold LSValue.reduce
    rw [hfold2]
  · -- an internal base: the collapse leaves exactly the base's entry
    have hkeysgone : eraseKeys m (nodeLocsAt b π t) = [] := by
      apply List.filter_eq_nil_iff.mpr
      intro e he
      simp only [decide_eq_true_eq, not_not]
      have hx := hsub e he
      rw [hexp] at hx
      rcases List.mem_map.mp hx with ⟨q, hq, heq⟩
      exact List.mem_map.mpr ⟨q, leafPaths_sub_nodePaths t q hq, heq⟩
    have hfold2 : (nodeLocs E (LSLocation.mk b π)).reverse.foldl (reduceNode E) (m, st) =
        ([(LSLocation.mk b π, v)], st₂) := by
      rw [hnl, hfold, hkeysgone, List.nil_append]
    refine ⟨(v.materialize st₂).1, v, (v.materialize st₂).2, ?_⟩
    unfold LSValue.reduce
    rw [hfold2]

/-- Witness for claim C3 on the Point scenario's value map: reduction
returns successfully with a single remaining entry keyed by the whole
struct's location. -/
theorem claim3_witness :
    ∃ r v st', LSValue.reduce envPoint locP mapSameBase ⟨100, []⟩ =
      some (r, [(locP, v)], st') :=
  claim3 envPoint locP tPoint mapSameBase ⟨100, []⟩ rfl (by decide) (by decide) (by decide)

end SILVP
